import Mathlib

/-!
# eredis: host state machine, writer engine and host-file loader

A shallow embedding of `src/eredis.c`.  Every C function that is modelled keeps
its name.  External library calls (hiredis, libev) are not executed: each one is
recorded, with its arguments, in a list of `Call`s returned next to the new
state, and the result the library hands back is a parameter of the function.
Pointers to hiredis contexts are natural-number handles, `none` being `NULL`.
-/

namespace Eredis

/-! ## Constants (eredis.c, lines 68-118) -/

def HOST_DISCONNECTED : Int := 0
def HOST_CONNECTED : Int := 1
def HOST_FAILED : Int := 2

def HOST_DISCONNECTED_RETRIES : Int := 10
def HOST_FAILED_RETRY_AFTER : Int := 20

def DEFAULT_HOST_READER_MAX : Int := 10
def DEFAULT_HOST_TIMEOUT : Int := 5
def DEFAULT_HOST_READER_RETRY : Int := 1

def QUEUE_MAX_UNSHIFT : Int := 10000

def EREDIS_F_INRUN : Nat := 0x01
def EREDIS_F_INTHR : Nat := 0x02
def EREDIS_F_READY : Nat := 0x04
def EREDIS_F_SHUTDOWN : Nat := 0x08

/-- The hiredis status code `REDIS_OK`. -/
def REDIS_OK : Int := 0
/-- The hiredis status code `REDIS_ERR`. -/
def REDIS_ERR : Int := -1

/-! ## Machine integers -/

/-- Value stored by an assignment to a signed 8-bit bit-field (`int x:8`). -/
def wrap8 (x : Int) : Int := (x + 128) % 256 - 128

/-- Value stored by an assignment to a signed 16-bit bit-field (`int x:16`). -/
def wrap16 (x : Int) : Int := (x + 32768) % 65536 - 32768

/-- Value stored by an assignment to a 32-bit `int`. -/
def wrap32 (x : Int) : Int := (x + 2147483648) % 4294967296 - 2147483648

/-! ## Data model (eredis.c, lines 120-207) -/

/-- Host container `host_t`.  The back pointer `e` is the instance that holds
the host table and is not stored. -/
structure host_t where
  async_ctx : Option Nat
  target : List Char
  port : Int
  status : Int
  failures : Int
deriving DecidableEq, Repr

/-- Write queue entry `wqueue_ent_t`: the bytes `s` and the length `l`; the
links `next`, `prev` are the list the entry sits in. -/
structure wqueue_ent_t where
  s : List Char
  l : Int
deriving DecidableEq, Repr

/-- The anonymous struct `wqueue` of `eredis_t`: the entries from `fst` on, head
first, and the counter `nb`. -/
structure wqueue_t where
  fst : List wqueue_ent_t
  nb : Int
deriving DecidableEq, Repr

/-- The instance `eredis_t`, without the locks, the thread handle, the libev
watchers and the reader queue. -/
structure eredis_t where
  hosts : List host_t
  hosts_alloc : Int
  hosts_connected : Int
  sync_to_sec : Int
  sync_to_usec : Int
  reader_max : Int
  reader_retry : Int
  flags : Nat
  send_async_pending : Int
  wqueue : wqueue_t
deriving DecidableEq, Repr

/-- The field `hosts_nb`: the number of entries of the host table in use. -/
def eredis_t.hosts_nb (e : eredis_t) : Int := e.hosts.length

/-- A call into hiredis or libev, with its arguments. -/
inductive Call where
  | redisConnect (target : List Char) (port : Int)
  | redisConnectUnix (target : List Char)
  | redisAsyncConnect (target : List Char) (port : Int)
  | redisAsyncConnectUnix (target : List Char)
  | redisFree (c : Nat)
  | redisAsyncFree (ac : Nat)
  | redisLibevAttach (ac : Nat)
  | redisAsyncSetDisconnectCallback (ac : Nat)
  | redisAsyncSetConnectCallback (ac : Nat)
  | redisEnableKeepAlive (c : Nat)
  | redisSetTimeout (c : Nat) (tv_sec tv_usec : Int)
  | set_reader_maxbuf (c : Nat)
  | redisAsyncCommand (ac : Option Nat) (s : List Char) (l : Int)
  | redisAsyncDisconnect (ac : Nat)
  | ev_async_send
  | ev_timer_stop
  | ev_async_stop
  | ev_break
deriving DecidableEq, Repr

/-- What `redisConnect`, `redisAsyncConnect` and their `Unix` variants hand back:
`NULL`, a context whose `err` is set, or a usable context. -/
inductive ConnResult where
  | null
  | err (c : Nat)
  | ok (c : Nat)
deriving DecidableEq, Repr

/-! ## Flag helpers (eredis.c, lines 104-118) -/

def IS_INRUN (e : eredis_t) : Bool := e.flags &&& EREDIS_F_INRUN != 0
def IS_INTHR (e : eredis_t) : Bool := e.flags &&& EREDIS_F_INTHR != 0
def IS_READY (e : eredis_t) : Bool := e.flags &&& EREDIS_F_READY != 0
def IS_SHUTDOWN (e : eredis_t) : Bool := e.flags &&& EREDIS_F_SHUTDOWN != 0

def SET_INRUN (e : eredis_t) : eredis_t := { e with flags := e.flags ||| EREDIS_F_INRUN }
def SET_INTHR (e : eredis_t) : eredis_t := { e with flags := e.flags ||| EREDIS_F_INTHR }
def SET_READY (e : eredis_t) : eredis_t := { e with flags := e.flags ||| EREDIS_F_READY }
def SET_SHUTDOWN (e : eredis_t) : eredis_t := { e with flags := e.flags ||| EREDIS_F_SHUTDOWN }

/-! ## Construction (eredis.c, lines 215-315) -/

/-- `eredis_new`: `calloc` zeroes every field, then the three defaults are set. -/
def eredis_new : eredis_t :=
  { hosts := []
    hosts_alloc := 0
    hosts_connected := 0
    sync_to_sec := DEFAULT_HOST_TIMEOUT
    sync_to_usec := 0
    reader_max := DEFAULT_HOST_READER_MAX
    reader_retry := DEFAULT_HOST_READER_RETRY
    flags := 0
    send_async_pending := 0
    wqueue := { fst := [], nb := 0 } }

/-- `eredis_host_add`: the new host is written at index `hosts_nb`. -/
def eredis_host_add (e : eredis_t) (target : List Char) (port : Int) : eredis_t :=
  let alloc := if e.hosts_nb ≤ e.hosts_alloc then e.hosts_alloc + 8 else e.hosts_alloc
  let h : host_t :=
    { async_ctx := none
      target := target
      port := wrap16 port
      status := HOST_DISCONNECTED
      failures := 0 }
  { e with hosts_alloc := alloc, hosts := e.hosts ++ [h] }

/-- `eredis_shutdown`. -/
def eredis_shutdown (e : eredis_t) : eredis_t := SET_SHUTDOWN e

/-! ## Callbacks of the async connection (eredis.c, lines 391-451) -/

/-- The statements of `_redis_connect_cb` that touch the host `h = c->data`. -/
def connect_cb_host (h : host_t) (status : Int) : host_t :=
  if status = REDIS_OK then
    { h with failures := 0, status := HOST_CONNECTED }
  else
    let h1 : host_t :=
      if h.status = HOST_FAILED then
        let f1 := wrap8 (h.failures.tmod HOST_FAILED_RETRY_AFTER)
        { h with failures := wrap8 (f1 + 1) }
      else if h.status = HOST_DISCONNECTED then
        let f1 := wrap8 (h.failures + 1)
        if f1 > HOST_DISCONNECTED_RETRIES then
          { h with failures := 0, status := HOST_FAILED }
        else { h with failures := f1 }
      else h
    { h1 with async_ctx := none }

/-- `_redis_connect_cb` for a context whose `data` is host number `i`. -/
def _redis_connect_cb (e : eredis_t) (i : Nat) (status : Int) : eredis_t :=
  match e.hosts.get? i with
  | none => e
  | some h =>
    let e1 := { e with hosts := e.hosts.set i (connect_cb_host h status) }
    if status = REDIS_OK then
      { e1 with hosts_connected := wrap32 (e1.hosts_connected + 1) }
    else e1

/-- The statements of `_redis_disconnect_cb` that touch the host. -/
def disconnect_cb_host (h : host_t) : host_t :=
  { h with failures := 0, status := HOST_DISCONNECTED, async_ctx := none }

/-- `_redis_disconnect_cb` for a context whose `data` is host number `i`. -/
def _redis_disconnect_cb (e : eredis_t) (i : Nat) : eredis_t :=
  match e.hosts.get? i with
  | none => e
  | some h =>
    let e1 :=
      if h.status ≠ HOST_CONNECTED then e
      else { e with hosts_connected := wrap32 (e.hosts_connected - 1) }
    { e1 with hosts := e1.hosts.set i (disconnect_cb_host h) }

/-! ## Connecting a host (eredis.c, lines 453-542) -/

/-- The fields of `eredis_reader_t` that `_host_connect` writes: the synchronous
context `ctx` and the host (its index in the table) the reader is bound to. -/
structure eredis_reader_t where
  ctx : Option Nat
  host : Option Nat
deriving DecidableEq, Repr

/-- `_host_connect (h, r)` for the host `h` at index `i`, where `res` is what
the hiredis connect call hands back.  Returns the C return value, the host, the
reader and the library calls made, in order. -/
def _host_connect (e : eredis_t) (i : Nat) (h : host_t) (r : Option eredis_reader_t)
    (res : ConnResult) : Int × host_t × Option eredis_reader_t × List Call :=
  match r with
  | some rd =>
    let call := if h.port ≠ 0 then Call.redisConnect h.target h.port
                else Call.redisConnectUnix h.target
    match res with
    | .null => (0, h, some rd, [call])
    | .err c => (0, h, some rd, [call, .redisFree c])
    | .ok c =>
      let rd1 : eredis_reader_t := { rd with ctx := some c, host := some i }
      let keep :=
        if h.port ≠ 0 then
          [Call.redisEnableKeepAlive c] ++
            (if e.sync_to_sec ≠ 0 ∨ e.sync_to_usec ≠ 0 then
              [Call.redisSetTimeout c e.sync_to_sec e.sync_to_usec] else [])
        else []
      (1, h, some rd1, [call] ++ keep ++ [.set_reader_maxbuf c])
  | none =>
    let call := if h.port ≠ 0 then Call.redisAsyncConnect h.target h.port
                else Call.redisAsyncConnectUnix h.target
    match res with
    | .null => (0, h, none, [call])
    | .err ac => (0, h, none, [call, .redisAsyncFree ac])
    | .ok ac =>
      let h1 : host_t := { h with async_ctx := some ac }
      let keep := if h.port ≠ 0 then [Call.redisEnableKeepAlive ac] else []
      (1, h1, none,
        [call, .redisLibevAttach ac, .redisAsyncSetDisconnectCallback ac,
          .redisAsyncSetConnectCallback ac] ++ keep ++ [.set_reader_maxbuf ac])

/-! ## Write queue (queue.c, which is not among the sources) -/

/-- Modelled from the spec: `_eredis_wqueue_shift` of queue.c, the head pop
`shift() → bytes?` of §4.3.  Returns `none` (the C `NULL`) on an empty queue;
otherwise the head entry leaves the queue and the length `nb` goes down by
one. -/
def _eredis_wqueue_shift (e : eredis_t) : Option (wqueue_ent_t × eredis_t) :=
  match e.wqueue.fst with
  | [] => none
  | ent :: rest => some (ent, { e with wqueue := { fst := rest, nb := e.wqueue.nb - 1 } })

/-- Modelled from the spec: `_eredis_wqueue_unshift` of queue.c, the head push
`unshift(bytes)` of §4.3. -/
def _eredis_wqueue_unshift (e : eredis_t) (s : List Char) (l : Int) : eredis_t :=
  { e with wqueue := { fst := { s := s, l := l } :: e.wqueue.fst, nb := e.wqueue.nb + 1 } }

/-- Modelled from the spec: the tail push `append(bytes)` of §4.3 (queue.c),
without the call of the trigger that follows it. -/
def _eredis_wqueue_push (e : eredis_t) (s : List Char) (l : Int) : eredis_t :=
  { e with wqueue := { fst := e.wqueue.fst ++ [{ s := s, l := l }], nb := e.wqueue.nb + 1 } }

/-! ## The drain callback and its trigger (eredis.c, lines 544-598) -/

/-- The `for` loop of `_eredis_ev_send_cb` over the host table: the commands
issued and the counter `nb`. -/
def send_hosts (s : List Char) (l : Int) : List host_t → List Call × Int
  | [] => ([], 0)
  | h :: hs =>
    let (cs, nb) := send_hosts s l hs
    if h.status = HOST_CONNECTED then (Call.redisAsyncCommand h.async_ctx s l :: cs, nb + 1)
    else (cs, nb)

/-- The `while` loop of `_eredis_ev_send_cb`, run for at most `fuel` iterations;
`none` when the fuel is used up before the loop ends. -/
def send_loop : Nat → eredis_t → Option (eredis_t × List Call)
  | 0, _ => none
  | fuel + 1, e =>
    match _eredis_wqueue_shift e with
    | none => some (e, [])
    | some (ent, e1) =>
      let (cs, nb) := send_hosts ent.s ent.l e1.hosts
      if nb = 0 ∧ e1.wqueue.nb < QUEUE_MAX_UNSHIFT then
        some (_eredis_wqueue_unshift e1 ent.s ent.l, cs)
      else
        match send_loop fuel e1 with
        | none => none
        | some (e2, cs2) => some (e2, cs ++ cs2)

/-- `_eredis_ev_send_cb`.  Every iteration that does not leave the loop removes
one entry, so one more iteration than there are entries is enough. -/
def _eredis_ev_send_cb (e : eredis_t) : Option (eredis_t × List Call) :=
  send_loop (e.wqueue.fst.length + 1) { e with send_async_pending := 0 }

/-- `_eredis_ev_send_trigger`. -/
def _eredis_ev_send_trigger (e : eredis_t) : eredis_t × List Call :=
  if IS_READY e && !IS_SHUTDOWN e && e.send_async_pending == 0 then
    ({ e with send_async_pending := 1 }, [.ev_async_send])
  else (e, [])

/-! ## The reconnect timer callback (eredis.c, lines 600-681) -/

/-- The body of the shutdown loop of `_eredis_ev_connect_cb` (lines 618-624). -/
def shutdown_hosts : List host_t → List Call
  | [] => []
  | h :: hs =>
    (if h.status = HOST_CONNECTED then
      match h.async_ctx with
      | some ac => [Call.redisAsyncDisconnect ac]
      | none => []
    else []) ++ shutdown_hosts hs

/-- The `switch` of `_eredis_ev_connect_cb` (lines 639-663) for the host `h` at
index `i`; `res` is what the connect call hands back if it is made. -/
def connect_host (e : eredis_t) (i : Nat) (h : host_t) (res : ConnResult) :
    host_t × List Call :=
  if h.status = HOST_CONNECTED then (h, [])
  else if h.status = HOST_FAILED then
    if h.failures < HOST_FAILED_RETRY_AFTER then
      let f1 := wrap8 (h.failures.tmod HOST_FAILED_RETRY_AFTER)
      ({ h with failures := wrap8 (f1 + 1) }, [])
    else
      let (ret, h1, _, cs) := _host_connect e i h none res
      if ret = 0 then
        let f1 := wrap8 (h1.failures.tmod HOST_FAILED_RETRY_AFTER)
        ({ h1 with failures := wrap8 (f1 + 1) }, cs)
      else (h1, cs)
  else if h.status = HOST_DISCONNECTED then
    let (ret, h1, _, cs) := _host_connect e i h none res
    if ret = 0 then
      let f1 := wrap8 (h1.failures + 1)
      if f1 > HOST_DISCONNECTED_RETRIES then
        ({ h1 with failures := 0, status := HOST_FAILED }, cs)
      else ({ h1 with failures := f1 }, cs)
    else (h1, cs)
  else (h, [])

/-- The `for` loop of lines 637-664 from index `i` on; `conn j` is what the
connect call for host `j` hands back. -/
def connect_hosts (e : eredis_t) (conn : Nat → ConnResult) :
    Nat → List host_t → List host_t × List Call
  | _, [] => ([], [])
  | i, h :: hs =>
    let (h1, cs) := connect_host e i h (conn i)
    let (hs1, cs1) := connect_hosts e conn (i + 1) hs
    (h1 :: hs1, cs ++ cs1)

/-- The counter `nb` of lines 668-674. -/
def ready_nb : List host_t → Int
  | [] => 0
  | h :: hs => (if h.status = HOST_CONNECTED ∨ h.failures ≠ 0 then 1 else 0) + ready_nb hs

/-- `_eredis_ev_connect_cb`. -/
def _eredis_ev_connect_cb (e : eredis_t) (conn : Nat → ConnResult) : eredis_t × List Call :=
  if IS_SHUTDOWN e then
    if e.hosts_connected ≠ 0 then (e, shutdown_hosts e.hosts)
    else (e, [.ev_timer_stop, .ev_async_stop, .ev_break])
  else
    let (hs, cs) := connect_hosts e conn 0 e.hosts
    let e1 := { e with hosts := hs }
    if ¬ IS_READY e1 then
      if ready_nb e1.hosts = e1.hosts_nb then
        ({ SET_READY e1 with send_async_pending := 1 }, cs ++ [.ev_async_send])
      else (e1, cs)
    else (e1, cs)

/-! ## The host file loader (eredis.c, lines 317-384)

The buffer of `len + 1` bytes is a list of characters and a C pointer into it is
an index.  A read or a write at an index that is not below the length of the
list is outside the allocation; the C functions below then have no result
(`none`). -/

/-- The character `'\0'`. -/
def NUL : Char := Char.ofNat 0

/-- The scan of `strchr (p, c)` over the bytes from `p` on (`c` is not NUL);
`i` is the index of the first byte.  `some none` is the C `NULL`. -/
def strchr_aux (c : Char) : List Char → Nat → Option (Option Nat)
  | [], _ => none
  | x :: xs, i =>
    if x = c then some (some i)
    else if x = NUL then some none
    else strchr_aux c xs (i + 1)

/-- The call `strchr (b + buf, c)`: the index of the first `c` before the first NUL. -/
def strchr (b : List Char) (buf : Nat) (c : Char) : Option (Option Nat) :=
  strchr_aux c (b.drop buf) buf

/-- The scan of `strlen`. -/
def strlen_aux : List Char → Option Nat
  | [] => none
  | x :: xs => if x = NUL then some 0 else (strlen_aux xs).map (· + 1)

/-- The call `strlen (b + buf)`. -/
def strlen (b : List Char) (buf : Nat) : Option Nat := strlen_aux (b.drop buf)

/-- The scan of `strspn (p, " \t")`. -/
def strspn_aux : List Char → Option Nat
  | [] => none
  | x :: xs => if x = ' ' ∨ x = '\t' then (strspn_aux xs).map (· + 1) else some 0

/-- The call `strspn (b + buf, " \t")`. -/
def strspn (b : List Char) (buf : Nat) : Option Nat := strspn_aux (b.drop buf)

/-- The C string that starts at a byte: what `strdup` copies. -/
def cstr_aux : List Char → Option (List Char)
  | [] => none
  | x :: xs => if x = NUL then some [] else (cstr_aux xs).map (x :: ·)

/-- The C string at `b + buf`. -/
def cstr (b : List Char) (buf : Nat) : Option (List Char) := cstr_aux (b.drop buf)

/-- The C `isspace` in the "C" locale. -/
def isspace (c : Char) : Bool :=
  c = ' ' ∨ c = '\t' ∨ c = '\n' ∨ c = Char.ofNat 11 ∨ c = Char.ofNat 12 ∨ c = '\r'

/-- The digit loop of `atoi`, `acc` being the value read so far. -/
def atoi_digits : List Char → Int → Option Int
  | [], _ => none
  | x :: xs, acc =>
    if '0' ≤ x ∧ x ≤ '9' then atoi_digits xs (acc * 10 + ((x.toNat : Int) - 48))
    else some acc

/-- The scan of `atoi`: blanks, an optional sign, digits. -/
def atoi_aux : List Char → Option Int
  | [] => none
  | x :: xs =>
    if isspace x then atoi_aux xs
    else if x = '-' then (atoi_digits xs 0).map (fun v => -v)
    else if x = '+' then atoi_digits xs 0
    else atoi_digits (x :: xs) 0

/-- The largest value of a `long` of 64 bits. -/
def LONG_MAX : Int := 9223372036854775807

/-- The smallest value of a `long` of 64 bits. -/
def LONG_MIN : Int := -9223372036854775808

/-- The value `strtol` returns for a number `v`: beyond the range of a `long` it is
`LONG_MAX` or `LONG_MIN`. -/
def strtol_value (v : Int) : Int :=
  if v < LONG_MIN then LONG_MIN else if LONG_MAX < v then LONG_MAX else v

/-- The `int` that `atoi` returns for a number `v`.  The C library computes
`(int) strtol (nptr, NULL, 10)`: the number is cut to the range of a `long` and
the low 32 bits of that are kept. -/
def atoi_value (v : Int) : Int := wrap32 (strtol_value v)

/-- The call `atoi (b + p)`. -/
def atoi (b : List Char) (p : Nat) : Option Int := (atoi_aux (b.drop p)).map atoi_value

/-- The loop of lines 365-366, `while (tk>buf && (*tk == ' ' || *tk == '\t')) tk--`,
started at `tk`. -/
def trim_back (b : List Char) (buf : Nat) : Nat → Option Nat
  | 0 => some 0
  | tk + 1 =>
    if tk + 1 > buf then
      match b.get? (tk + 1) with
      | none => none
      | some c => if c = ' ' ∨ c = '\t' then trim_back b buf tk else some (tk + 1)
    else some (tk + 1)

/-- One pass through the body of the `while` loop (lines 357-376) with `buf` at a
byte that is not NUL: the buffer, the new `buf`, the instance and `ret`
afterwards. -/
def host_file_line (b : List Char) (buf : Nat) (e : eredis_t) (ret : Int) :
    Option (List Char × Nat × eredis_t × Int) :=
  match strchr b buf '\n' with
  | none => none
  | some r =>
    match (match r with
           | some p => some p
           | none => (strlen b buf).map (fun n => buf + n)) with
    | none => none
    | some end_ =>
      match strspn b buf with
      | none => none
      | some n =>
        let buf1 := buf + n
        match b.get? buf1 with
        | none => none
        | some c =>
          if c = '#' then some (b, end_ + 1, e, ret)
          else
            match trim_back b buf1 end_ with
            | none => none
            | some tk =>
              if b.length ≤ tk then none
              else
                let b1 := b.set tk NUL
                match strchr b1 buf1 ':' with
                | none => none
                | some none =>
                  match cstr b1 buf1 with
                  | none => none
                  | some t => some (b1, end_ + 1, eredis_host_add e t 0, ret + 1)
                | some (some p) =>
                  let b2 := b1.set p NUL
                  match atoi b2 (p + 1) with
                  | none => none
                  | some port =>
                    match cstr b2 buf1 with
                    | none => none
                    | some t => some (b2, end_ + 1, eredis_host_add e t port, ret + 1)

/-- Why a run of the loader has no result. -/
inductive Fault where
  | out_of_bounds
  | out_of_fuel
deriving DecidableEq, Repr

/-- The `while (*buf)` loop of lines 356-377, run for at most `fuel` passes. -/
def host_file_loop : Nat → List Char → Nat → eredis_t → Int → Except Fault (Int × eredis_t)
  | 0, _, _, _, _ => .error .out_of_fuel
  | fuel + 1, b, buf, e, ret =>
    match b.get? buf with
    | none => .error .out_of_bounds
    | some c =>
      if c = NUL then .ok (ret, e)
      else
        match host_file_line b buf e ret with
        | none => .error .out_of_bounds
        | some (b1, buf1, e1, ret1) => host_file_loop fuel b1 buf1 e1 ret1

/-- What the file system answers to `open`, `fstat` and `read`: `open` fails,
`fstat` fails, or the file has the bytes `content` (so `st_size` is their
number) and `read` returns `nread`; when `nread` is `st_size` the buffer holds
`content`. -/
inductive FileEnv where
  | open_fails
  | fstat_fails
  | file (content : List Char) (nread : Int)
deriving DecidableEq, Repr

/-- `eredis_host_file`: the value returned and the instance afterwards.  Every
pass of the loop moves `buf` forward by at least one byte, so `len + 2` passes
are enough. -/
def eredis_host_file (e : eredis_t) (f : FileEnv) : Except Fault (Int × eredis_t) :=
  match f with
  | .open_fails => .ok (-1, e)
  | .fstat_fails => .ok (-1, e)
  | .file content nread =>
    let st_size : Int := content.length
    let len := wrap32 st_size
    if len > 16384 then .ok (-1, e)
    else
      let len1 := wrap32 nread
      if len1 ≠ st_size then .ok (-1, e)
      else host_file_loop (content.length + 2) (content ++ [NUL]) 0 e 0

/-! ## The event loop as a transition system

The callbacks run on the writer thread, one at a time.  Besides the instance,
the state holds what hiredis and libev know: for which hosts an async context
still owes its connect callback, for which hosts a context is established, and
whether the async wakeup has been signalled. -/

/-- The instance and the async contexts alive in hiredis.  `inflight` lists, for
every context whose connect callback is still to come, the host it was created
for (`c->data`); `estab` lists the same for every context whose connect callback
reported `REDIS_OK` and whose disconnect callback has not run. -/
structure World where
  e : eredis_t
  inflight : List Nat
  estab : List Nat
  signalled : Bool
deriving DecidableEq, Repr

/-- An event of the writer thread or a call of the API.  `write` is the append of
§4.3 of the spec followed by the trigger (rw.c is not among the sources). -/
inductive Event where
  | tick (conn : Nat → ConnResult)
  | connect_cb (i : Nat) (status : Int)
  | disconnect_cb (i : Nat)
  | trigger
  | send
  | write (s : List Char) (l : Int)
  | shutdown

/-- Whether a list of library calls registers a connect callback. -/
def registers_connect_cb (cs : List Call) : Bool :=
  cs.any (fun c => match c with
    | .redisAsyncSetConnectCallback _ => true
    | _ => false)

/-- The hosts, from index `i` on, for which the `for` loop of the timer callback
creates an async context and registers the callbacks. -/
def started_hosts (e : eredis_t) (conn : Nat → ConnResult) : Nat → List host_t → List Nat
  | _, [] => []
  | i, h :: hs =>
    (if registers_connect_cb (connect_host e i h (conn i)).2 then [i] else []) ++
      started_hosts e conn (i + 1) hs

/-- Whether a list of library calls signals the async wakeup. -/
def signals (cs : List Call) : Bool := cs.any (fun c => c = Call.ev_async_send)

/-- A fresh instance with the hosts of `adds` added in order. -/
def World.init (adds : List (List Char × Int)) : World :=
  { e := adds.foldl (fun e a => eredis_host_add e a.1 a.2) eredis_new
    inflight := []
    estab := []
    signalled := false }

/-- One event; `none` when the event cannot happen in the state: a connect
callback needs a context in flight for the host, a disconnect callback an
established one, the drain a signalled wakeup. -/
def World.step (w : World) : Event → Option World
  | .tick conn =>
    let r := _eredis_ev_connect_cb w.e conn
    let started := if IS_SHUTDOWN w.e then [] else started_hosts w.e conn 0 w.e.hosts
    some { w with e := r.1, inflight := w.inflight ++ started,
                  signalled := w.signalled || signals r.2 }
  | .connect_cb i status =>
    if i ∈ w.inflight then
      some { w with e := _redis_connect_cb w.e i status, inflight := w.inflight.erase i,
                    estab := if status = REDIS_OK then i :: w.estab else w.estab }
    else none
  | .disconnect_cb i =>
    if i ∈ w.estab then
      some { w with e := _redis_disconnect_cb w.e i, estab := w.estab.erase i }
    else none
  | .trigger =>
    let r := _eredis_ev_send_trigger w.e
    some { w with e := r.1, signalled := w.signalled || signals r.2 }
  | .send =>
    if w.signalled then
      match _eredis_ev_send_cb w.e with
      | none => none
      | some r => some { w with e := r.1, signalled := false }
    else none
  | .write s l =>
    let r := _eredis_ev_send_trigger (_eredis_wqueue_push w.e s l)
    some { w with e := r.1, signalled := w.signalled || signals r.2 }
  | .shutdown => some { w with e := eredis_shutdown w.e }

/-- A sequence of events, from left to right. -/
def World.run (w : World) : List Event → Option World
  | [] => some w
  | ev :: evs =>
    match w.step ev with
    | none => none
    | some w1 => w1.run evs

/-- The number of hosts whose status is Connected. -/
def connected_nb : List host_t → Int
  | [] => 0
  | h :: hs => (if h.status = HOST_CONNECTED then 1 else 0) + connected_nb hs

/-! ## Connect failures of one host -/

/-- Whether the timer callback called a connect function: the call is the first
entry of the list of library calls made for the host. -/
def attempted (cs : List Call) : Bool := !cs.isEmpty

/-- One connect failure of a host: a connect callback with a status other than
`REDIS_OK`, or a timer tick whose connect call for the host fails at once (a
call is made and no callback is registered). -/
inductive ConnectFailure : host_t → host_t → Prop
  | callback (h : host_t) (status : Int) :
      status ≠ REDIS_OK → ConnectFailure h (connect_cb_host h status)
  | timer (e : eredis_t) (i : Nat) (h : host_t) (res : ConnResult) :
      attempted (connect_host e i h res).2 = true →
      registers_connect_cb (connect_host e i h res).2 = false →
      ConnectFailure h (connect_host e i h res).1

/-- A timer tick on which no connect call for the host fails: either no call is
made, or the call leaves a connect in flight. -/
inductive QuietTick : host_t → host_t → Prop
  | mk (e : eredis_t) (i : Nat) (h : host_t) (res : ConnResult) :
      (attempted (connect_host e i h res).2 = false ∨
        registers_connect_cb (connect_host e i h res).2 = true) →
      QuietTick h (connect_host e i h res).1

/-- `AfterFailures k h h1`: the host `h` is `h1` right after its `k`-th connect
failure in a row, any number of quiet timer ticks, and no successful connect
and no disconnect, lying in between. -/
inductive AfterFailures : Nat → host_t → host_t → Prop
  | start (h : host_t) : AfterFailures 0 h h
  | next {k : Nat} {h h1 h2 h3 : host_t} :
      AfterFailures k h h1 → Relation.ReflTransGen QuietTick h1 h2 →
      ConnectFailure h2 h3 → AfterFailures (k + 1) h h3

/-- A host as `eredis_host_add` leaves it. -/
def fresh_host (target : List Char) (port : Int) : host_t :=
  { async_ctx := none, target := target, port := wrap16 port,
    status := HOST_DISCONNECTED, failures := 0 }

/-- The host after `k` connect callbacks that report `REDIS_ERR`. -/
def failed_callbacks : Nat → host_t → host_t
  | 0, h => h
  | k + 1, h => connect_cb_host (failed_callbacks k h) REDIS_ERR

/-! ## What a drain is to deliver -/

/-- The submissions one queue entry calls for: one `redisAsyncCommand` with the
entry for every host whose status is Connected, in table order, none for any
other host. -/
def fanout (ent : wqueue_ent_t) (hosts : List host_t) : List Call :=
  (hosts.filter (fun h => decide (h.status = HOST_CONNECTED))).map
    (fun h => Call.redisAsyncCommand h.async_ctx ent.s ent.l)

/-- The submissions a whole queue calls for, entry after entry in queue order. -/
def fanout_all : List wqueue_ent_t → List host_t → List Call
  | [], _ => []
  | ent :: rest, hosts => fanout ent hosts ++ fanout_all rest hosts

/-- Three hosts, the first and the last Connected. -/
def demo_hosts : List host_t :=
  [{ async_ctx := some 1, target := ['a'], port := 6379, status := HOST_CONNECTED, failures := 0 },
   { async_ctx := none, target := ['b'], port := 6380, status := HOST_DISCONNECTED, failures := 3 },
   { async_ctx := some 2, target := ['c'], port := 0, status := HOST_CONNECTED, failures := 0 }]

/-- Two hosts, none Connected. -/
def demo_hosts_down : List host_t :=
  [{ async_ctx := none, target := ['a'], port := 6379, status := HOST_FAILED, failures := 7 },
   { async_ctx := some 4, target := ['b'], port := 6380, status := HOST_DISCONNECTED,
     failures := 0 }]

/-- A write queue of two entries. -/
def demo_wqueue : wqueue_t :=
  { fst := [{ s := ['x'], l := 1 }, { s := ['y', 'z'], l := 2 }], nb := 2 }

/-- `n` calls of `_eredis_ev_send_trigger` in a row: the instance afterwards and
the library calls made, in order. -/
def triggers : Nat → eredis_t → eredis_t × List Call
  | 0, e => (e, [])
  | n + 1, e =>
    let r1 := _eredis_ev_send_trigger e
    let r2 := triggers n r1.1
    (r2.1, r1.2 ++ r2.2)

/-- Whether an event is a run of the drain callback. -/
def is_send : Event → Bool
  | .send => true
  | _ => false

/-- The number of wakeups (0 or 1) an event signals through the trigger, called
directly or after an append to the write queue. -/
def trigger_wakeup (w : World) : Event → Nat
  | .trigger => if signals (_eredis_ev_send_trigger w.e).2 then 1 else 0
  | .write s l =>
    if signals (_eredis_ev_send_trigger (_eredis_wqueue_push w.e s l)).2 then 1 else 0
  | _ => 0

/-- The number of wakeups signalled through the trigger in a run of events. -/
def trigger_wakeups : World → List Event → Nat
  | _, [] => 0
  | w, ev :: evs =>
    match w.step ev with
    | none => 0
    | some w1 => trigger_wakeup w ev + trigger_wakeups w1 evs

/-- The disconnects a shutdown tick is to request: one `redisAsyncDisconnect` for
every host that is Connected and has an async context, in table order. -/
def disconnect_requests (hosts : List host_t) : List Call :=
  (hosts.filter (fun h => decide (h.status = HOST_CONNECTED))).filterMap
    (fun h => h.async_ctx.map Call.redisAsyncDisconnect)

/-- Whether a library call is one of the four connect calls. -/
def is_connect_call : Call → Bool
  | .redisConnect _ _ => true
  | .redisConnectUnix _ => true
  | .redisAsyncConnect _ _ => true
  | .redisAsyncConnectUnix _ => true
  | _ => false

/-- The calls that stop the event loop (lines 627-632). -/
def stop_calls : List Call := [.ev_timer_stop, .ev_async_stop, .ev_break]

/-- The host at index `i` after `n` timer ticks without Shutdown, `res k` being
what the connect call hands back on tick number `k` (counted from 0) if the
call is made. -/
def host_after_ticks (e : eredis_t) (i : Nat) (res : Nat → ConnResult) : Nat → host_t → host_t
  | 0, h => h
  | n + 1, h => (connect_host e i (host_after_ticks e i res n h) (res n)).1

/-- Whether tick number `n` (counted from 0) calls a connect function for the
host. -/
def attempt_on_tick (e : eredis_t) (i : Nat) (res : Nat → ConnResult) (n : Nat) (h : host_t) :
    Bool :=
  attempted (connect_host e i (host_after_ticks e i res n h) (res n)).2

/-- A Failed host in its cool-down. -/
def demo_failed_host : host_t :=
  { async_ctx := none, target := ['a'], port := 6379, status := HOST_FAILED, failures := 20 }

/-- Connect results of a tick: the call for host 0 fails at once, every other
call leaves a connect in flight. -/
def first_host_refused : Nat → ConnResult := fun i => if i = 0 then .null else .ok 7

/-- The statuses and failure counters of the host table. -/
def host_states (e : eredis_t) : List (Int × Int) := e.hosts.map (fun h => (h.status, h.failures))

/-- A local-socket host as `eredis_host_add` leaves it. -/
def demo_unix_host : host_t := fresh_host ['/', 't', 'm', 'p', '/', 'r'] 0

/-- A reader that has no connection yet. -/
def demo_reader : eredis_reader_t := { ctx := none, host := none }

/-- Whether a library call is `redisSetTimeout`. -/
def is_set_timeout : Call → Bool
  | .redisSetTimeout _ _ _ => true
  | _ => false

/-- The states a host of the running engine is in: Disconnected with at most 10
failures counted, Connected with none, or Failed with the cool-down counter
between 0 and 20. -/
def host_ok (h : host_t) : Prop :=
  (h.status = HOST_DISCONNECTED ∧ 0 ≤ h.failures ∧ h.failures ≤ 10) ∨
  (h.status = HOST_CONNECTED ∧ h.failures = 0) ∨
  (h.status = HOST_FAILED ∧ 0 ≤ h.failures ∧ h.failures ≤ 20)

/-- The state after a timer tick that starts a connect and the success of that
connect. -/
def demo_connected_world : World :=
  { e := { eredis_new with
             hosts := [{ async_ctx := some 1, target := ['h'], port := 6379,
                         status := HOST_CONNECTED, failures := 0 }]
             hosts_alloc := 8
             hosts_connected := 1 }
    inflight := []
    estab := [0]
    signalled := false }

/-- Whether a library call belongs to the set-up of an async connection: the
calls `_host_connect` makes without a reader. -/
def is_async_setup : Call → Bool
  | .redisAsyncConnect _ _ => true
  | .redisAsyncConnectUnix _ => true
  | .redisAsyncFree _ => true
  | .redisLibevAttach _ => true
  | .redisAsyncSetDisconnectCallback _ => true
  | .redisAsyncSetConnectCallback _ => true
  | .redisEnableKeepAlive _ => true
  | .set_reader_maxbuf _ => true
  | _ => false

/-- Whether a library call submits a command to a host. -/
def is_command : Call → Bool
  | .redisAsyncCommand _ _ _ => true
  | _ => false

/-! ## The host file, line by line -/

/-- A blank of the loader: a space or a tab. -/
def is_blank (c : Char) : Bool := c = ' ' || c = '\t'

/-- The file whose lines are `lines`, each one followed by a newline. -/
def file_of_lines : List (List Char) → List Char
  | [] => []
  | l :: ls => l ++ '\n' :: file_of_lines ls

/-- The number a string of decimal digits stands for. -/
def decimal_value (ds : List Char) : Int :=
  ds.foldl (fun acc d => acc * 10 + ((d.toNat : Int) - 48)) 0

/-- The host one line of the file asks for, read off the line: nothing when the
first character after the leading blanks is `#`; otherwise the target is what
follows the leading blanks up to the first `:` or the end of the line, and the
port is what `atoi` makes of the text after that `:`, or 0 when there is no
`:`. -/
def line_host (line : List Char) : Option (List Char × Int) :=
  let t := line.dropWhile is_blank
  if t.head? = some '#' then none
  else
    some (t.takeWhile (fun c => c != ':'),
      match t.dropWhile (fun c => c != ':') with
      | [] => 0
      | _ :: ptxt => (atoi (ptxt ++ [NUL]) 0).getD 0)

/-- The calls of `eredis_host_add` a file of lines asks for, in line order. -/
def file_hosts (lines : List (List Char)) : List (List Char × Int) :=
  lines.filterMap line_host

/-- The instance after a list of `eredis_host_add` calls. -/
def add_hosts (e : eredis_t) (adds : List (List Char × Int)) : eredis_t :=
  adds.foldl (fun e a => eredis_host_add e a.1 a.2) e

/-- A line of text: no newline and no NUL in it. -/
def clean_line (line : List Char) : Prop := ∀ c ∈ line, c ≠ '\n' ∧ c ≠ NUL

/-- The instance after the loader has dealt with one line. -/
def add_line (e : eredis_t) (line : List Char) : eredis_t :=
  match line_host line with
  | none => e
  | some a => eredis_host_add e a.1 a.2

/-- What one line adds to the count the loader returns. -/
def line_count (line : List Char) : Int :=
  match line_host line with
  | none => 0
  | some _ => 1

/-- A host file of three lines: a comment behind a blank, a host with a port, a
local socket. -/
def demo_lines : List (List Char) :=
  [[' ', '#', 'c'], ['a', ':', '6', '3', '7', '9'], ['/', 's']]

/-- World after three timer ticks on one host whose connect attempt fails at once each
time: the host is Disconnected with three failures. -/
def demo_failing_world : World :=
  { e :=
      { hosts := [{ async_ctx := none, target := ['h'], port := 6379, status := 0,
                    failures := 3 }],
        hosts_alloc := 8, hosts_connected := 0, sync_to_sec := 5, sync_to_usec := 0,
        reader_max := 10, reader_retry := 1, flags := 4, send_async_pending := 1,
        wqueue := { fst := [], nb := 0 } },
    inflight := [], estab := [], signalled := true }

/-- A host file line whose port, 2147483648, is one more than the largest `int`. -/
def demo_port_int_line : List Char :=
  ['a', ':', '2', '1', '4', '7', '4', '8', '3', '6', '4', '8']

/-- A host file line whose port, 9223372036854775808, is one more than the largest
`long`. -/
def demo_port_long_line : List Char :=
  ['a', ':', '9', '2', '2', '3', '3', '7', '2', '0', '3', '6', '8', '5', '4', '7', '7', '5',
   '8', '0', '8']

/-! ## Theorems -/

/-- C1: the counter `hosts_connected` is meant to equal the number of hosts whose
status is Connected.  Here one host is added; the timer fires twice before the
first connect attempt has reported (the host is still Disconnected, so the second
tick starts a second attempt); then both attempts report success.  The run is
possible, and it ends with `hosts_connected = 2` while one host is Connected. -/
theorem C1_hosts_connected_counts_twice :
    ((World.init [(['h'], 6379)]).run
        [.tick (fun _ => .ok 1), .tick (fun _ => .ok 2),
         .connect_cb 0 REDIS_OK, .connect_cb 0 REDIS_OK]).map
      (fun w => (w.e.hosts_connected, connected_nb w.e.hosts)) = some (2, 1) := by
  decide

/-! ### The failure counter of one host -/

theorem wrap8_of_range {x : Int} (h1 : -128 ≤ x) (h2 : x ≤ 127) : wrap8 x = x := by
  unfold wrap8; omega

theorem tmod_twenty {f : Int} (h : 0 ≤ f) : f.tmod 20 = f % 20 :=
  Int.tmod_eq_emod h (by decide)

/-- What a failed connect callback does to the status and the counter. -/
theorem connect_cb_host_err (h : host_t) (status : Int) (hst : status ≠ REDIS_OK)
    (h0 : 0 ≤ h.failures) (h1 : h.failures ≤ 20) :
    (h.status = HOST_DISCONNECTED → h.failures < 10 →
      (connect_cb_host h status).status = HOST_DISCONNECTED ∧
      (connect_cb_host h status).failures = h.failures + 1) ∧
    (h.status = HOST_DISCONNECTED → 10 ≤ h.failures →
      (connect_cb_host h status).status = HOST_FAILED ∧
      (connect_cb_host h status).failures = 0) ∧
    (h.status = HOST_FAILED →
      (connect_cb_host h status).status = HOST_FAILED ∧
      (connect_cb_host h status).failures = h.failures % 20 + 1) := by
  have e8 : wrap8 (h.failures + 1) = h.failures + 1 := wrap8_of_range (by omega) (by omega)
  have em : wrap8 (wrap8 (h.failures % 20) + 1) = h.failures % 20 + 1 := by
    have a : wrap8 (h.failures % 20) = h.failures % 20 := wrap8_of_range (by omega) (by omega)
    rw [a]; exact wrap8_of_range (by omega) (by omega)
  refine ⟨fun hs hf => ?_, fun hs hf => ?_, fun hs => ?_⟩
  · have : ¬ (h.failures + 1 > 10) := by omega
    simp [connect_cb_host, hst, hs, HOST_DISCONNECTED, HOST_FAILED, HOST_DISCONNECTED_RETRIES,
      e8, this]
  · have : h.failures + 1 > 10 := by omega
    simp [connect_cb_host, hst, hs, HOST_DISCONNECTED, HOST_FAILED, HOST_DISCONNECTED_RETRIES,
      e8, this]
  · simp [connect_cb_host, hst, hs, HOST_FAILED, HOST_FAILED_RETRY_AFTER, tmod_twenty h0, em]

/-- The async branch of `_host_connect`, by what the library hands back. -/
theorem host_connect_async (e : eredis_t) (i : Nat) (h : host_t) (res : ConnResult) :
    (∀ ac, res = .ok ac →
      (_host_connect e i h none res).1 = 1 ∧
      (_host_connect e i h none res).2.1 = { h with async_ctx := some ac } ∧
      attempted (_host_connect e i h none res).2.2.2 = true ∧
      registers_connect_cb (_host_connect e i h none res).2.2.2 = true) ∧
    ((∀ ac, res ≠ .ok ac) →
      (_host_connect e i h none res).1 = 0 ∧
      (_host_connect e i h none res).2.1 = h ∧
      attempted (_host_connect e i h none res).2.2.2 = true ∧
      registers_connect_cb (_host_connect e i h none res).2.2.2 = false) := by
  cases res with
  | null =>
    refine ⟨fun ac hac => (by cases hac), fun _ => ?_⟩
    by_cases hp : h.port = 0 <;>
      simp [_host_connect, attempted, registers_connect_cb, hp]
  | err c =>
    refine ⟨fun ac hac => (by cases hac), fun _ => ?_⟩
    by_cases hp : h.port = 0 <;>
      simp [_host_connect, attempted, registers_connect_cb, hp]
  | ok c =>
    refine ⟨fun ac hac => ?_, fun hne => absurd rfl (hne c)⟩
    cases hac
    by_cases hp : h.port = 0 <;>
      simp [_host_connect, attempted, registers_connect_cb, hp]

/-- What one timer tick does to a host, by status, counter and the outcome of
the connect call. -/
theorem connect_host_cases (e : eredis_t) (i : Nat) (h : host_t) (res : ConnResult)
    (h0 : 0 ≤ h.failures) (h1 : h.failures ≤ 20) :
    (h.status = HOST_DISCONNECTED →
      attempted (connect_host e i h res).2 = true ∧
      (registers_connect_cb (connect_host e i h res).2 = true →
        (connect_host e i h res).1.status = HOST_DISCONNECTED ∧
        (connect_host e i h res).1.failures = h.failures) ∧
      (registers_connect_cb (connect_host e i h res).2 = false →
        (h.failures < 10 →
          (connect_host e i h res).1.status = HOST_DISCONNECTED ∧
          (connect_host e i h res).1.failures = h.failures + 1) ∧
        (10 ≤ h.failures →
          (connect_host e i h res).1.status = HOST_FAILED ∧
          (connect_host e i h res).1.failures = 0))) ∧
    (h.status = HOST_FAILED →
      (h.failures < 20 →
        attempted (connect_host e i h res).2 = false ∧
        (connect_host e i h res).1.status = HOST_FAILED ∧
        (connect_host e i h res).1.failures = h.failures % 20 + 1) ∧
      (20 ≤ h.failures →
        attempted (connect_host e i h res).2 = true ∧
        (registers_connect_cb (connect_host e i h res).2 = true →
          (connect_host e i h res).1.status = HOST_FAILED ∧
          (connect_host e i h res).1.failures = h.failures) ∧
        (registers_connect_cb (connect_host e i h res).2 = false →
          (connect_host e i h res).1.status = HOST_FAILED ∧
          (connect_host e i h res).1.failures = h.failures % 20 + 1))) := by
  have e8 : wrap8 (h.failures + 1) = h.failures + 1 := wrap8_of_range (by omega) (by omega)
  have em : wrap8 (wrap8 (h.failures % 20) + 1) = h.failures % 20 + 1 := by
    have a : wrap8 (h.failures % 20) = h.failures % 20 := wrap8_of_range (by omega) (by omega)
    rw [a]; exact wrap8_of_range (by omega) (by omega)
  obtain ⟨hok, hfail⟩ := host_connect_async e i h res
  by_cases hres : ∃ ac, res = .ok ac
  · obtain ⟨ac, hac⟩ := hres
    obtain ⟨r1, r2, r3, r4⟩ := hok ac hac
    refine ⟨fun hs => ?_, fun hs => ⟨fun hf => ?_, fun hf => ?_⟩⟩
    · simp [connect_host, hs, HOST_DISCONNECTED, HOST_CONNECTED, HOST_FAILED, r1, r2, r3, r4]
    · have : h.failures < 20 := hf
      simp [connect_host, hs, HOST_CONNECTED, HOST_FAILED, HOST_FAILED_RETRY_AFTER, this,
        tmod_twenty h0, em, attempted]
    · have : ¬ h.failures < 20 := by omega
      simp [connect_host, hs, HOST_CONNECTED, HOST_FAILED, HOST_FAILED_RETRY_AFTER, this,
        r1, r2, r3, r4]
  · have hne : ∀ ac, res ≠ .ok ac := fun ac hac => hres ⟨ac, hac⟩
    obtain ⟨r1, r2, r3, r4⟩ := hfail hne
    refine ⟨fun hs => ?_, fun hs => ⟨fun hf => ?_, fun hf => ?_⟩⟩
    · by_cases hf : h.failures < 10
      · have : ¬ (h.failures + 1 > 10) := by omega
        simp [connect_host, hs, HOST_DISCONNECTED, HOST_CONNECTED, HOST_FAILED,
          HOST_DISCONNECTED_RETRIES, r1, r2, r3, r4, e8, this, hf]
      · have : h.failures + 1 > 10 := by omega
        have hf2 : 10 ≤ h.failures := by omega
        simp [connect_host, hs, HOST_DISCONNECTED, HOST_CONNECTED, HOST_FAILED,
          HOST_DISCONNECTED_RETRIES, r1, r2, r3, r4, e8, this, hf, hf2]
    · have : h.failures < 20 := hf
      simp [connect_host, hs, HOST_CONNECTED, HOST_FAILED, HOST_FAILED_RETRY_AFTER, this,
        tmod_twenty h0, em, attempted]
    · have : ¬ h.failures < 20 := by omega
      simp [connect_host, hs, HOST_CONNECTED, HOST_FAILED, HOST_FAILED_RETRY_AFTER, this,
        r1, r2, r3, r4, tmod_twenty h0, em]

/-- Quiet timer ticks keep a host that has failed `k` times in a row where the
failures left it: Disconnected with the counter at `k` up to the tenth failure,
Failed with the counter between 0 and 20 from the eleventh on. -/
theorem quiet_tick_keeps (k : Nat) (h h1 : host_t) (hq : QuietTick h h1)
    (hD : k ≤ 10 → h.status = HOST_DISCONNECTED ∧ h.failures = k)
    (hF : 11 ≤ k → h.status = HOST_FAILED ∧ 0 ≤ h.failures ∧ h.failures ≤ 20) :
    (k ≤ 10 → h1.status = HOST_DISCONNECTED ∧ h1.failures = k) ∧
    (11 ≤ k → h1.status = HOST_FAILED ∧ 0 ≤ h1.failures ∧ h1.failures ≤ 20) := by
  cases hq with
  | mk e i _ res hq =>
    have hb : 0 ≤ h.failures ∧ h.failures ≤ 20 := by
      by_cases hk : k ≤ 10
      · have := (hD hk).2; omega
      · have := hF (by omega); omega
    obtain ⟨cD, cF⟩ := connect_host_cases e i h res hb.1 hb.2
    refine ⟨fun hk => ?_, fun hk => ?_⟩
    · obtain ⟨hs, hf⟩ := hD hk
      obtain ⟨a, b, _⟩ := cD hs
      rcases hq with hq | hq
      · rw [a] at hq; cases hq
      · have := b hq; exact ⟨this.1, by rw [this.2, hf]⟩
    · obtain ⟨hs, hf0, hf1⟩ := hF hk
      obtain ⟨lo, hi⟩ := cF hs
      by_cases hlt : h.failures < 20
      · obtain ⟨_, b, c⟩ := lo hlt
        exact ⟨b, by omega, by omega⟩
      · obtain ⟨a, b, _⟩ := hi (by omega)
        rcases hq with hq | hq
        · rw [a] at hq; cases hq
        · have := b hq; exact ⟨this.1, by omega, by omega⟩

theorem quiet_ticks_keep (k : Nat) (h h1 : host_t) (hq : Relation.ReflTransGen QuietTick h h1)
    (hD : k ≤ 10 → h.status = HOST_DISCONNECTED ∧ h.failures = k)
    (hF : 11 ≤ k → h.status = HOST_FAILED ∧ 0 ≤ h.failures ∧ h.failures ≤ 20) :
    (k ≤ 10 → h1.status = HOST_DISCONNECTED ∧ h1.failures = k) ∧
    (11 ≤ k → h1.status = HOST_FAILED ∧ 0 ≤ h1.failures ∧ h1.failures ≤ 20) := by
  induction hq with
  | refl => exact ⟨hD, hF⟩
  | tail _ hstep ih => exact quiet_tick_keeps k _ _ hstep ih.1 ih.2

/-- The next connect failure of a host that has failed `k` times in a row. -/
theorem connect_failure_next (k : Nat) (h h1 : host_t) (hc : ConnectFailure h h1)
    (hD : k ≤ 10 → h.status = HOST_DISCONNECTED ∧ h.failures = k)
    (hF : 11 ≤ k → h.status = HOST_FAILED ∧ 0 ≤ h.failures ∧ h.failures ≤ 20) :
    (k + 1 ≤ 10 → h1.status = HOST_DISCONNECTED ∧ h1.failures = (k + 1 : Nat)) ∧
    (k + 1 = 11 → h1.status = HOST_FAILED ∧ h1.failures = 0) ∧
    (11 < k + 1 → h1.status = HOST_FAILED ∧ 1 ≤ h1.failures ∧ h1.failures ≤ 20) := by
  have hb : 0 ≤ h.failures ∧ h.failures ≤ 20 := by
    by_cases hk : k ≤ 10
    · have := (hD hk).2; omega
    · have := hF (by omega); omega
  cases hc with
  | callback _ status hst =>
    obtain ⟨c1, c2, c3⟩ := connect_cb_host_err h status hst hb.1 hb.2
    refine ⟨fun hk => ?_, fun hk => ?_, fun hk => ?_⟩
    · obtain ⟨hs, hf⟩ := hD (by omega)
      have := c1 hs (by omega)
      exact ⟨this.1, by rw [this.2, hf]; push_cast; ring⟩
    · obtain ⟨hs, hf⟩ := hD (by omega)
      exact c2 hs (by omega)
    · obtain ⟨hs, _, _⟩ := hF (by omega)
      have := c3 hs
      exact ⟨this.1, by omega, by omega⟩
  | timer e i _ res ha hr =>
    obtain ⟨cD, cF⟩ := connect_host_cases e i h res hb.1 hb.2
    refine ⟨fun hk => ?_, fun hk => ?_, fun hk => ?_⟩
    · obtain ⟨hs, hf⟩ := hD (by omega)
      have := ((cD hs).2.2 hr).1 (by omega)
      exact ⟨this.1, by rw [this.2, hf]; push_cast; ring⟩
    · obtain ⟨hs, hf⟩ := hD (by omega)
      exact ((cD hs).2.2 hr).2 (by omega)
    · obtain ⟨hs, _, _⟩ := hF (by omega)
      obtain ⟨lo, hi⟩ := cF hs
      by_cases hlt : h.failures < 20
      · have := (lo hlt).1; rw [this] at ha; cases ha
      · have := (hi (by omega)).2.2 hr
        exact ⟨this.1, by omega, by omega⟩

/-- Where `k` connect failures in a row leave a host that was Disconnected with
the counter at 0. -/
theorem after_failures_state (k : Nat) (h0 h : host_t)
    (hs : h0.status = HOST_DISCONNECTED) (hf : h0.failures = 0)
    (hrun : AfterFailures k h0 h) :
    (k ≤ 10 → h.status = HOST_DISCONNECTED ∧ h.failures = k) ∧
    (k = 11 → h.status = HOST_FAILED ∧ h.failures = 0) ∧
    (11 < k → h.status = HOST_FAILED ∧ 1 ≤ h.failures ∧ h.failures ≤ 20) := by
  induction hrun with
  | start =>
    exact ⟨fun _ => ⟨hs, by simpa using hf⟩, fun hk => by omega, fun hk => by omega⟩
  | @next j _ a _ _ hprev hquiet hfail ih =>
    obtain ⟨i1, i2, i3⟩ := ih hs hf
    have hF : 11 ≤ j → a.status = HOST_FAILED ∧ 0 ≤ a.failures ∧ a.failures ≤ 20 := by
      intro hj
      by_cases h11 : j = 11
      · have := i2 h11; exact ⟨this.1, by omega, by omega⟩
      · have := i3 (by omega); exact ⟨this.1, by omega, by omega⟩
    obtain ⟨q1, q2⟩ := quiet_ticks_keep j _ _ hquiet i1 hF
    exact connect_failure_next j _ _ hfail q1 q2

theorem after_failed_callbacks (k : Nat) (h : host_t) :
    AfterFailures k h (failed_callbacks k h) := by
  induction k with
  | zero => exact AfterFailures.start h
  | succ n ih =>
    exact AfterFailures.next ih Relation.ReflTransGen.refl
      (ConnectFailure.callback _ REDIS_ERR (by decide))

/-- C2, as stated, fails at k = 12: twelve failed connect callbacks in a row
leave the host Failed with the counter at 1, not 0. -/
theorem C2_twelve_failures_leave_counter_one :
    ∃ h : host_t, AfterFailures 12 (fresh_host ['h'] 6379) h ∧
      ¬ (h.status = HOST_FAILED ∧ h.failures = 0) :=
  ⟨failed_callbacks 12 (fresh_host ['h'] 6379), after_failed_callbacks 12 _, by decide⟩

/-- C2, amended: for every k > 10, a host that is Disconnected with the counter
at 0 and then has k connect failures in a row (failed callbacks or connect calls
of the timer that fail at once, with quiet ticks in between and no success) is
Failed; the counter is 0 right after the 11th failure and between 1 and 20 right
after every later one. -/
theorem C2_failed_after_more_than_ten_failures (k : Nat) (h0 h : host_t)
    (hs : h0.status = HOST_DISCONNECTED) (hf : h0.failures = 0) (hk : 10 < k)
    (hrun : AfterFailures k h0 h) :
    h.status = HOST_FAILED ∧ (k = 11 → h.failures = 0) ∧
      (11 < k → 1 ≤ h.failures ∧ h.failures ≤ 20) := by
  obtain ⟨_, a, b⟩ := after_failures_state k h0 h hs hf hrun
  refine ⟨?_, fun h11 => (a h11).2, fun hgt => (b hgt).2⟩
  by_cases h11 : k = 11
  · exact (a h11).1
  · exact (b (by omega)).1

theorem C2_failed_after_more_than_ten_failures_witness :
    (fresh_host ['h'] 6379).status = HOST_DISCONNECTED ∧
    (fresh_host ['h'] 6379).failures = 0 ∧ 10 < 11 ∧
    AfterFailures 11 (fresh_host ['h'] 6379) (failed_callbacks 11 (fresh_host ['h'] 6379)) ∧
    ((failed_callbacks 11 (fresh_host ['h'] 6379)).status = HOST_FAILED ∧
      (11 = 11 → (failed_callbacks 11 (fresh_host ['h'] 6379)).failures = 0) ∧
      (11 < 11 → 1 ≤ (failed_callbacks 11 (fresh_host ['h'] 6379)).failures ∧
        (failed_callbacks 11 (fresh_host ['h'] 6379)).failures ≤ 20)) :=
  ⟨rfl, rfl, by decide, after_failed_callbacks 11 _,
    C2_failed_after_more_than_ten_failures 11 _ _ rfl rfl (by decide)
      (after_failed_callbacks 11 _)⟩

/-! ### The drain callback -/

theorem connected_nb_nonneg (hosts : List host_t) : 0 ≤ connected_nb hosts := by
  induction hosts with
  | nil => simp [connected_nb]
  | cons h hs ih => unfold connected_nb; split <;> omega

theorem connected_nb_pos (hosts : List host_t)
    (hc : ∃ h ∈ hosts, h.status = HOST_CONNECTED) : 0 < connected_nb hosts := by
  induction hosts with
  | nil => obtain ⟨h, hm, _⟩ := hc; cases hm
  | cons h hs ih =>
    have := connected_nb_nonneg hs
    unfold connected_nb
    by_cases hst : h.status = HOST_CONNECTED
    · simp only [hst, if_true]; omega
    · obtain ⟨x, hm, hx⟩ := hc
      rcases List.mem_cons.1 hm with rfl | hm
      · exact absurd hx hst
      · have := ih ⟨x, hm, hx⟩
        simp only [hst, if_false]; omega

theorem connected_nb_zero (hosts : List host_t)
    (hc : ∀ h ∈ hosts, h.status ≠ HOST_CONNECTED) : connected_nb hosts = 0 := by
  induction hosts with
  | nil => rfl
  | cons h hs ih =>
    unfold connected_nb
    have h1 := hc h (List.mem_cons_self _ _)
    have h2 := ih (fun x hx => hc x (List.mem_cons_of_mem _ hx))
    simp [h1, h2]

/-- The inner loop of the drain issues the fan-out of the entry and counts the
Connected hosts. -/
theorem send_hosts_eq (s : List Char) (l : Int) (hosts : List host_t) :
    send_hosts s l hosts = (fanout { s := s, l := l } hosts, connected_nb hosts) := by
  induction hosts with
  | nil => rfl
  | cons h hs ih =>
    unfold send_hosts
    rw [ih]
    by_cases hst : h.status = HOST_CONNECTED
    · simp [hst, fanout, connected_nb]; omega
    · simp [hst, fanout, connected_nb]

/-- With a Connected host the loop of the drain runs until the queue is empty. -/
theorem send_loop_connected (e : eredis_t) (hc : 0 < connected_nb e.hosts)
    (q : List wqueue_ent_t) :
    ∀ (nb : Int) (fuel : Nat), q.length < fuel →
      send_loop fuel { e with wqueue := { fst := q, nb := nb } } =
        some ({ e with wqueue := { fst := [], nb := nb - q.length } },
              fanout_all q e.hosts) := by
  induction q with
  | nil =>
    intro nb fuel hfuel
    obtain ⟨n, rfl⟩ : ∃ n, fuel = n + 1 := ⟨fuel - 1, by simp at hfuel; omega⟩
    simp [send_loop, _eredis_wqueue_shift, fanout_all]
  | cons ent rest ih =>
    intro nb fuel hfuel
    obtain ⟨n, rfl⟩ : ∃ n, fuel = n + 1 := ⟨fuel - 1, by simp at hfuel; omega⟩
    have hne : connected_nb e.hosts ≠ 0 := by omega
    have hrec := ih (nb - 1) n (by simp at hfuel; omega)
    simp only [send_loop, _eredis_wqueue_shift, send_hosts_eq, hne, false_and, if_false, hrec]
    simp only [fanout_all, List.length_cons, Nat.cast_add, Nat.cast_one]
    congr 4
    omega

/-- C3: two hosts are added.  The timer starts a connect for both, the one for the
second host succeeds, and the timer fires again before the first host has
reported, so two contexts are in flight for the first host; one of them reports
success and the other failure, which clears `async_ctx`.  Both hosts are then
Connected, the first with a NULL `async_ctx`.  The next tick sets Ready and two
commands are appended.  The drain is scheduled, and it calls
`__redisAsyncCommand` with the NULL context of the first host for every entry:
no entry is submitted to that Connected host, and the queue is left empty. -/
theorem C3_drain_passes_null_context_for_connected_host :
    ((World.init [(['a'], 6379), (['b'], 6380)]).run
        [.tick (fun i => .ok (i + 1)), .connect_cb 1 REDIS_OK, .tick (fun _ => .ok 3),
         .connect_cb 0 REDIS_OK, .connect_cb 0 REDIS_ERR,
         .tick (fun _ => .null), .write ['x'] 1, .write ['y', 'z'] 2]).map
      (fun w => (host_states w.e, w.e.hosts.map (fun h => h.async_ctx), w.inflight,
        w.e.wqueue.fst, w.signalled,
        (_eredis_ev_send_cb w.e).map (fun r => (r.2, r.1.wqueue.fst)))) =
      some ([(HOST_CONNECTED, 0), (HOST_CONNECTED, 0)], [none, some 2], [],
        [{ s := ['x'], l := 1 }, { s := ['y', 'z'], l := 2 }], true,
        some ([.redisAsyncCommand none ['x'] 1, .redisAsyncCommand (some 2) ['x'] 1,
               .redisAsyncCommand none ['y', 'z'] 2, .redisAsyncCommand (some 2) ['y', 'z'] 2],
              [])) :=
  rfl

theorem fanout_of_connected_nb_zero (ent : wqueue_ent_t) (hosts : List host_t)
    (hc : connected_nb hosts = 0) : fanout ent hosts = [] := by
  induction hosts with
  | nil => rfl
  | cons h hs ih =>
    have hnn := connected_nb_nonneg hs
    unfold connected_nb at hc
    by_cases hst : h.status = HOST_CONNECTED
    · simp only [hst, if_true] at hc; omega
    · simp only [hst, if_false] at hc
      have := ih (by omega)
      simpa [fanout, hst] using this

/-- With no Connected host the loop of the drain drops entries from the head
while more than `QUEUE_MAX_UNSHIFT` are queued, then puts the entry it holds
back and stops.  The bound is `m`. -/
theorem send_loop_down (e : eredis_t) (hc : connected_nb e.hosts = 0)
    (m : Nat) (hm : QUEUE_MAX_UNSHIFT = (m : Int)) (q : List wqueue_ent_t) :
    ∀ (fuel : Nat), q.length < fuel →
      send_loop fuel { e with wqueue := { fst := q, nb := q.length } } =
        some ({ e with wqueue := { fst := q.drop (q.length - m),
                                   nb := (min q.length m : Nat) } }, []) := by
  induction q with
  | nil =>
    intro fuel hfuel
    obtain ⟨n, rfl⟩ : ∃ n, fuel = n + 1 := ⟨fuel - 1, by simp at hfuel; omega⟩
    simp [send_loop, _eredis_wqueue_shift]
  | cons ent rest ih =>
    intro fuel hfuel
    obtain ⟨n, rfl⟩ : ∃ n, fuel = n + 1 := ⟨fuel - 1, by simp at hfuel; omega⟩
    have hrec := ih n (by simp at hfuel; omega)
    have hnb : ((ent :: rest).length : Int) - 1 = rest.length := by
      simp
    simp only [send_loop, _eredis_wqueue_shift, send_hosts_eq, hc, true_and, hnb, hm]
    by_cases hlt : (rest.length : Int) < m
    · have h1 : rest.length + 1 - m = 0 := by omega
      have h2 : min (rest.length + 1) m = rest.length + 1 := by omega
      simp only [hlt, if_true, _eredis_wqueue_unshift, List.length_cons, h1, h2, List.drop_zero,
        fanout_of_connected_nb_zero _ _ hc]
      simp
    · have h1 : rest.length + 1 - m = (rest.length - m) + 1 := by omega
      have h2 : min (rest.length + 1) m = min rest.length m := by omega
      simp only [hlt, if_false, hrec, List.length_cons, h1, h2, List.drop_succ_cons,
        fanout_of_connected_nb_zero _ _ hc]
      simp

/-- C4: when no host is Connected and the queue holds `n` entries (the counter
`nb` being `n`), one run of the drain callback returns, submits nothing, and
leaves in the queue the last `min n 10000` entries in their order; so a queue of
at most 10000 entries is unchanged. -/
theorem C4_drain_with_all_hosts_down (e : eredis_t)
    (hc : ∀ h ∈ e.hosts, h.status ≠ HOST_CONNECTED)
    (hnb : e.wqueue.nb = e.wqueue.fst.length) :
    _eredis_ev_send_cb e =
      some ({ e with send_async_pending := 0,
                     wqueue := { fst := e.wqueue.fst.drop (e.wqueue.fst.length - 10000),
                                 nb := (min e.wqueue.fst.length 10000 : Nat) } }, []) ∧
    (e.wqueue.fst.length ≤ 10000 →
      _eredis_ev_send_cb e = some ({ e with send_async_pending := 0 }, [])) := by
  have h := send_loop_down { e with send_async_pending := 0 }
    (connected_nb_zero e.hosts hc) 10000 (by simp [QUEUE_MAX_UNSHIFT]) e.wqueue.fst
    (e.wqueue.fst.length + 1) (Nat.lt_succ_self _)
  have h1 : _eredis_ev_send_cb e =
      some ({ e with send_async_pending := 0,
                     wqueue := { fst := e.wqueue.fst.drop (e.wqueue.fst.length - 10000),
                                 nb := (min e.wqueue.fst.length 10000 : Nat) } }, []) := by
    unfold _eredis_ev_send_cb
    rw [← h]
    congr 2
    rw [← hnb]
  refine ⟨h1, fun hle => ?_⟩
  rw [h1]
  have a : e.wqueue.fst.length - 10000 = 0 := by omega
  have b : min e.wqueue.fst.length 10000 = e.wqueue.fst.length := by omega
  rw [a, b, List.drop_zero, ← hnb]

theorem C4_drain_with_all_hosts_down_witness :
    (∀ h ∈ ({ eredis_new with hosts := demo_hosts_down, wqueue := demo_wqueue } : eredis_t).hosts,
        h.status ≠ HOST_CONNECTED) ∧
    ({ eredis_new with hosts := demo_hosts_down, wqueue := demo_wqueue } : eredis_t).wqueue.nb =
      (({ eredis_new with hosts := demo_hosts_down, wqueue := demo_wqueue } :
        eredis_t).wqueue.fst.length : Int) ∧
    _eredis_ev_send_cb { eredis_new with hosts := demo_hosts_down, wqueue := demo_wqueue } =
      some ({ eredis_new with hosts := demo_hosts_down, wqueue := demo_wqueue }, []) :=
  ⟨by decide, by decide,
   (C4_drain_with_all_hosts_down
     { eredis_new with hosts := demo_hosts_down, wqueue := demo_wqueue }
     (by decide) (by decide)).2 (by decide)⟩

/-- The loop of the drain ends within `fuel` passes when `fuel` exceeds the number
of queued entries, and touches neither the flags, nor the pending flag, nor the
hosts. -/
theorem send_loop_returns (fuel : Nat) :
    ∀ e : eredis_t, e.wqueue.fst.length < fuel →
      ∃ r, send_loop fuel e = some r ∧ r.1.send_async_pending = e.send_async_pending ∧
        r.1.flags = e.flags ∧ r.1.hosts = e.hosts ∧
        r.1.hosts_connected = e.hosts_connected := by
  induction fuel with
  | zero => intro e h; omega
  | succ n ih =>
    intro e h
    cases hq : e.wqueue.fst with
    | nil => exact ⟨(e, []), by simp [send_loop, _eredis_wqueue_shift, hq], rfl, rfl, rfl, rfl⟩
    | cons ent rest =>
      rw [hq] at h
      obtain ⟨r, hr, h1, h2, h3, h4⟩ :=
        ih { e with wqueue := { fst := rest, nb := e.wqueue.nb - 1 } }
          (by simp at h ⊢; omega)
      simp only [send_loop, _eredis_wqueue_shift, hq, hr]
      split
      · exact ⟨_, rfl, rfl, rfl, rfl, rfl⟩
      · exact ⟨_, rfl, h1, h2, h3, h4⟩

/-- A trigger with the pending flag set does nothing. -/
theorem triggers_pending (n : Nat) (e : eredis_t) (hp : e.send_async_pending ≠ 0) :
    triggers n e = (e, []) := by
  induction n with
  | zero => rfl
  | succ k ih => simp [triggers, _eredis_ev_send_trigger, hp, ih]

/-- What one trigger call does, by whether it fires. -/
theorem trigger_cases (e : eredis_t) :
    (_eredis_ev_send_trigger e = (e, []) ∧
      ¬ (IS_READY e = true ∧ IS_SHUTDOWN e = false ∧ e.send_async_pending = 0)) ∨
    (_eredis_ev_send_trigger e = ({ e with send_async_pending := 1 }, [.ev_async_send]) ∧
      (IS_READY e = true ∧ IS_SHUTDOWN e = false ∧ e.send_async_pending = 0)) := by
  by_cases hc : IS_READY e = true ∧ IS_SHUTDOWN e = false ∧ e.send_async_pending = 0
  · right
    exact ⟨by simp [_eredis_ev_send_trigger, hc.1, hc.2.1, hc.2.2], hc⟩
  · left
    refine ⟨?_, hc⟩
    unfold _eredis_ev_send_trigger
    split
    · rename_i hc2
      simp only [Bool.and_eq_true, Bool.not_eq_true', beq_iff_eq] at hc2
      exact absurd ⟨hc2.1.1, hc2.1.2, hc2.2⟩ hc
    · rfl

/-- No event other than the drain clears the pending flag. -/
theorem step_keeps_pending (w w1 : World) (ev : Event) (hns : is_send ev = false)
    (hp : w.e.send_async_pending ≠ 0) (hstep : w.step ev = some w1) :
    w1.e.send_async_pending ≠ 0 := by
  cases ev with
  | tick conn =>
    simp only [World.step, Option.some.injEq] at hstep
    subst hstep
    simp only [_eredis_ev_connect_cb]
    split
    · split <;> exact hp
    · split
      · split
        · simp
        · exact hp
      · exact hp
  | connect_cb i status =>
    by_cases hi : i ∈ w.inflight
    · simp only [World.step, hi, if_true, Option.some.injEq] at hstep
      subst hstep
      simp only [_redis_connect_cb]
      split
      · exact hp
      · split <;> exact hp
    · simp [World.step, hi] at hstep
  | disconnect_cb i =>
    by_cases hi : i ∈ w.estab
    · simp only [World.step, hi, if_true, Option.some.injEq] at hstep
      subst hstep
      simp only [_redis_disconnect_cb]
      split
      · exact hp
      · split <;> exact hp
    · simp [World.step, hi] at hstep
  | trigger =>
    simp only [World.step, Option.some.injEq] at hstep
    subst hstep
    rcases trigger_cases w.e with ⟨h, _⟩ | ⟨h, _⟩
    · simp only [h]; exact hp
    · simp only [h]; simp
  | send => cases hns
  | write s l =>
    simp only [World.step, Option.some.injEq] at hstep
    subst hstep
    rcases trigger_cases (_eredis_wqueue_push w.e s l) with ⟨h, _⟩ | ⟨h, _⟩
    · simp only [h]; exact hp
    · simp only [h]; simp
  | shutdown =>
    simp only [World.step, Option.some.injEq] at hstep
    subst hstep
    exact hp

/-- While the pending flag is set and no drain runs, no trigger signals. -/
theorem trigger_wakeups_pending (evs : List Event) :
    ∀ w : World, (∀ ev ∈ evs, is_send ev = false) → w.e.send_async_pending ≠ 0 →
      trigger_wakeups w evs = 0 := by
  induction evs with
  | nil => intro w _ _; rfl
  | cons ev rest ih =>
    intro w hns hp
    have hev := hns ev (List.mem_cons_self _ _)
    have hrest : ∀ x ∈ rest, is_send x = false := fun x hx => hns x (List.mem_cons_of_mem _ hx)
    cases hs : w.step ev with
    | none => simp only [trigger_wakeups, hs]
    | some w1 =>
      have hp1 := step_keeps_pending w w1 ev hev hp hs
      simp only [trigger_wakeups, hs, ih w1 hrest hp1, Nat.add_zero]
      cases ev with
      | trigger =>
        rcases trigger_cases w.e with ⟨h, _⟩ | ⟨_, h⟩
        · simp [trigger_wakeup, h, signals]
        · exact absurd h.2.2 hp
      | write s l =>
        rcases trigger_cases (_eredis_wqueue_push w.e s l) with ⟨h, _⟩ | ⟨_, h⟩
        · simp [trigger_wakeup, h, signals]
        · exact absurd h.2.2 hp
      | tick conn => rfl
      | connect_cb i status => rfl
      | disconnect_cb i => rfl
      | send => rfl
      | shutdown => rfl

/-- C5: the trigger is a no-op (same instance, no library call) unless Ready is
set, Shutdown is not set and the pending flag is clear; otherwise it sets the
pending flag, touches nothing else, and signals the async wakeup once.  A run of
the drain callback returns with the pending flag clear.  Any number of trigger
calls in a row, from any state and so also after a drain, signal the wakeup at
most once; and so do the trigger calls of any run of events of the engine (timer
ticks, connect and disconnect callbacks, appends to the queue, shutdown) in
which the drain callback does not run. -/
theorem C5_trigger_signals_at_most_once :
    (∀ e : eredis_t,
      ¬ (IS_READY e = true ∧ IS_SHUTDOWN e = false ∧ e.send_async_pending = 0) →
        _eredis_ev_send_trigger e = (e, [])) ∧
    (∀ e : eredis_t,
      IS_READY e = true ∧ IS_SHUTDOWN e = false ∧ e.send_async_pending = 0 →
        _eredis_ev_send_trigger e = ({ e with send_async_pending := 1 }, [.ev_async_send])) ∧
    (∀ e : eredis_t, ∃ r, _eredis_ev_send_cb e = some r ∧ r.1.send_async_pending = 0) ∧
    (∀ (n : Nat) (e : eredis_t),
      (triggers n e).2 = [] ∨ (triggers n e).2 = [.ev_async_send]) ∧
    (∀ (evs : List Event) (w : World), (∀ ev ∈ evs, is_send ev = false) →
      trigger_wakeups w evs ≤ 1) := by
  refine ⟨fun e h => ?_, fun e h => ?_, fun e => ?_, fun n => ?_, fun evs => ?_⟩
  · rcases trigger_cases e with ⟨h1, _⟩ | ⟨_, h2⟩
    · exact h1
    · exact absurd h2 h
  · rcases trigger_cases e with ⟨_, h1⟩ | ⟨h2, _⟩
    · exact absurd h h1
    · exact h2
  · obtain ⟨r, hr, h1, _, _, _⟩ :=
      send_loop_returns (e.wqueue.fst.length + 1) { e with send_async_pending := 0 }
        (Nat.lt_succ_self _)
    exact ⟨r, hr, h1⟩
  · induction n with
    | zero => intro e; exact Or.inl rfl
    | succ k ih =>
      intro e
      rcases trigger_cases e with ⟨h, _⟩ | ⟨h, _⟩
      · simp only [triggers, h, List.nil_append]
        exact ih e
      · right
        have hp : ({ e with send_async_pending := 1 } : eredis_t).send_async_pending ≠ 0 := by
          simp
        simp [triggers, h, triggers_pending k _ hp]
  · induction evs with
    | nil => intro w _; exact Nat.zero_le _
    | cons ev rest ih =>
      intro w hns
      have hev := hns ev (List.mem_cons_self _ _)
      have hrest : ∀ x ∈ rest, is_send x = false :=
        fun x hx => hns x (List.mem_cons_of_mem _ hx)
      cases hs : w.step ev with
      | none => simp only [trigger_wakeups, hs]; exact Nat.zero_le _
      | some w1 =>
        simp only [trigger_wakeups, hs]
        have hfire : ∀ e1 : eredis_t, w1.e = (_eredis_ev_send_trigger e1).1 →
            (if signals (_eredis_ev_send_trigger e1).2 = true then 1 else 0) +
              trigger_wakeups w1 rest ≤ 1 := by
          intro e1 he
          rcases trigger_cases e1 with ⟨h, _⟩ | ⟨h, _⟩
          · simp only [h, signals, List.any_nil, Bool.false_eq_true, if_false, Nat.zero_add]
            exact ih w1 hrest
          · have hp1 : w1.e.send_async_pending ≠ 0 := by rw [he, h]; simp
            rw [trigger_wakeups_pending rest w1 hrest hp1]
            split <;> omega
        cases ev with
        | trigger =>
          simp only [World.step, Option.some.injEq] at hs
          exact hfire w.e (by rw [← hs])
        | write s l =>
          simp only [World.step, Option.some.injEq] at hs
          exact hfire (_eredis_wqueue_push w.e s l) (by rw [← hs])
        | tick conn => simpa [trigger_wakeup] using ih w1 hrest
        | connect_cb i status => simpa [trigger_wakeup] using ih w1 hrest
        | disconnect_cb i => simpa [trigger_wakeup] using ih w1 hrest
        | send => cases hev
        | shutdown => simpa [trigger_wakeup] using ih w1 hrest

/-! ### The timer callback under shutdown -/

theorem shutdown_hosts_eq (hosts : List host_t) :
    shutdown_hosts hosts = disconnect_requests hosts := by
  induction hosts with
  | nil => rfl
  | cons h hs ih =>
    unfold shutdown_hosts
    rw [ih]
    by_cases hst : h.status = HOST_CONNECTED
    · cases hctx : h.async_ctx <;> simp [disconnect_requests, hst, hctx]
    · simp [disconnect_requests, hst]

theorem disconnect_requests_mem (hosts : List host_t) (c : Call)
    (hc : c ∈ disconnect_requests hosts) : ∃ ac, c = .redisAsyncDisconnect ac := by
  simp only [disconnect_requests, List.mem_filterMap] at hc
  obtain ⟨h, _, hm⟩ := hc
  cases hctx : h.async_ctx with
  | none => simp [hctx] at hm
  | some ac => exact ⟨ac, by simpa [hctx] using hm.symm⟩

/-- With Shutdown set the timer callback is the shutdown branch. -/
theorem connect_cb_shutdown (e : eredis_t) (conn : Nat → ConnResult)
    (hsd : IS_SHUTDOWN e = true) :
    _eredis_ev_connect_cb e conn =
      (e, if e.hosts_connected ≠ 0 then disconnect_requests e.hosts else stop_calls) := by
  unfold _eredis_ev_connect_cb
  rw [if_pos hsd]
  by_cases h : e.hosts_connected = 0
  · simp [h, stop_calls]
  · simp [h, shutdown_hosts_eq]

theorem trigger_keeps_hosts (e : eredis_t) :
    (_eredis_ev_send_trigger e).1.hosts = e.hosts ∧
    (_eredis_ev_send_trigger e).1.hosts_connected = e.hosts_connected ∧
    (_eredis_ev_send_trigger e).1.flags = e.flags := by
  unfold _eredis_ev_send_trigger
  split <;> exact ⟨rfl, rfl, rfl⟩

/-- With an empty host table the timer callback leaves the table empty and the
counter alone, and starts no connect. -/
theorem connect_cb_no_hosts (e : eredis_t) (conn : Nat → ConnResult) (hh : e.hosts = []) :
    (_eredis_ev_connect_cb e conn).1.hosts = [] ∧
    (_eredis_ev_connect_cb e conn).1.hosts_connected = e.hosts_connected ∧
    started_hosts e conn 0 e.hosts = [] := by
  refine ⟨?_, ?_, by rw [hh]; rfl⟩
  · unfold _eredis_ev_connect_cb
    rw [hh]
    simp only [connect_hosts]
    split
    · split <;> exact hh
    · split
      · split <;> rfl
      · rfl
  · unfold _eredis_ev_connect_cb
    rw [hh]
    simp only [connect_hosts]
    split
    · split <;> rfl
    · split
      · split <;> rfl
      · rfl

/-- With no host added, every event leaves the host table empty, the counter
`hosts_connected` at 0 and no async context alive. -/
theorem zero_hosts_step (w w1 : World) (ev : Event)
    (hinv : w.e.hosts = [] ∧ w.e.hosts_connected = 0 ∧ w.inflight = [] ∧ w.estab = [])
    (hstep : w.step ev = some w1) :
    w1.e.hosts = [] ∧ w1.e.hosts_connected = 0 ∧ w1.inflight = [] ∧ w1.estab = [] := by
  obtain ⟨hh, hc, hi, he⟩ := hinv
  cases ev with
  | tick conn =>
    obtain ⟨a, b, c⟩ := connect_cb_no_hosts w.e conn hh
    simp only [World.step, Option.some.injEq] at hstep
    subst hstep
    refine ⟨a, by rw [b, hc], ?_, he⟩
    simp only [hi, List.nil_append]
    split
    · rfl
    · exact c
  | connect_cb i status => simp [World.step, hi] at hstep
  | disconnect_cb i => simp [World.step, he] at hstep
  | trigger =>
    obtain ⟨a, b, _⟩ := trigger_keeps_hosts w.e
    simp only [World.step, Option.some.injEq] at hstep
    subst hstep
    exact ⟨by rw [a, hh], by rw [b, hc], hi, he⟩
  | send =>
    obtain ⟨r, hr, _, _, h3, h4⟩ :=
      send_loop_returns (w.e.wqueue.fst.length + 1) { w.e with send_async_pending := 0 }
        (Nat.lt_succ_self _)
    have hr2 : _eredis_ev_send_cb w.e = some r := hr
    by_cases hs : w.signalled = true
    · simp only [World.step, hs, if_true, hr2, Option.some.injEq] at hstep
      subst hstep
      exact ⟨by rw [h3]; exact hh, by rw [h4]; exact hc, hi, he⟩
    · simp [World.step, hs] at hstep
  | write s l =>
    obtain ⟨a, b, _⟩ := trigger_keeps_hosts (_eredis_wqueue_push w.e s l)
    simp only [World.step, Option.some.injEq] at hstep
    subst hstep
    exact ⟨by rw [a]; exact hh, by rw [b]; exact hc, hi, he⟩
  | shutdown =>
    simp only [World.step, Option.some.injEq] at hstep
    subst hstep
    exact ⟨hh, hc, hi, he⟩

theorem zero_hosts_run (evs : List Event) :
    ∀ (w w1 : World),
      (w.e.hosts = [] ∧ w.e.hosts_connected = 0 ∧ w.inflight = [] ∧ w.estab = []) →
      w.run evs = some w1 →
      w1.e.hosts = [] ∧ w1.e.hosts_connected = 0 ∧ w1.inflight = [] ∧ w1.estab = [] := by
  induction evs with
  | nil =>
    intro w w1 hinv hrun
    simp only [World.run, Option.some.injEq] at hrun
    subst hrun
    exact hinv
  | cons ev rest ih =>
    intro w w1 hinv hrun
    cases hs : w.step ev with
    | none => simp [World.run, hs] at hrun
    | some w2 =>
      simp only [World.run, hs] at hrun
      exact ih w2 w1 (zero_hosts_step w w2 ev hinv hs) hrun

/-- C6: in two reachable states a tick with Shutdown set does not do what the claim
says.  In both, one host is added and the timer fires twice before the first
connect attempt reports, so two contexts are in flight.  First run: both report
success, shutdown is requested, the shutdown tick asks for the disconnect and
the disconnect callback runs; then no host is Connected, `hosts_connected` is 1,
and the next tick makes no call at all: the loop is not stopped.  It stays so
when the other context is closed too: the counter is still 1, no context is
left, and the tick makes no call.  Second run: one context reports success and
the other failure (which clears `async_ctx`), shutdown is requested; then the
host is Connected, and the tick requests no disconnect. -/
theorem C6_shutdown_tick_goes_by_counter_and_context :
    ((World.init [(['h'], 6379)]).run
        [.tick (fun _ => .ok 1), .tick (fun _ => .ok 2),
         .connect_cb 0 REDIS_OK, .connect_cb 0 REDIS_OK, .shutdown,
         .tick (fun _ => .null), .disconnect_cb 0]).map
      (fun w => (IS_SHUTDOWN w.e, connected_nb w.e.hosts, w.e.hosts_connected,
        (_eredis_ev_connect_cb w.e (fun _ => .null)).2)) = some (true, 0, 1, []) ∧
    ((World.init [(['h'], 6379)]).run
        [.tick (fun _ => .ok 1), .tick (fun _ => .ok 2),
         .connect_cb 0 REDIS_OK, .connect_cb 0 REDIS_OK, .shutdown,
         .tick (fun _ => .null), .disconnect_cb 0, .tick (fun _ => .null),
         .disconnect_cb 0]).map
      (fun w => (IS_SHUTDOWN w.e, connected_nb w.e.hosts, w.e.hosts_connected,
        w.inflight, w.estab, (_eredis_ev_connect_cb w.e (fun _ => .null)).2)) =
      some (true, 0, 1, [], [], []) ∧
    ((World.init [(['h'], 6379)]).run
        [.tick (fun _ => .ok 1), .tick (fun _ => .ok 2),
         .connect_cb 0 REDIS_OK, .connect_cb 0 REDIS_ERR, .shutdown]).map
      (fun w => (IS_SHUTDOWN w.e, connected_nb w.e.hosts, w.e.hosts_connected,
        (_eredis_ev_connect_cb w.e (fun _ => .null)).2)) = some (true, 1, 1, []) :=
  ⟨rfl, rfl, rfl⟩

/-- The calls of a timer tick with Shutdown set, as the body of
`_eredis_ev_connect_cb` makes them (a disconnect callback that the library runs
from inside `redisAsyncDisconnect` is a separate event and is not part of this
body): no connect call is made; if the counter `hosts_connected` is not 0, an
async disconnect is requested for every Connected host that has an async
context, for nothing else, and the loop is not stopped; if the counter is 0, the
timer and the async wakeup are stopped and the loop is broken.  When the counter
equals the number of Connected hosts and every Connected host has an async
context, the case split is by whether some host is Connected.  With no host
added, in every state the event loop can reach, the tick stops the loop. -/
theorem shutdown_tick_calls (e : eredis_t) (conn : Nat → ConnResult)
    (hsd : IS_SHUTDOWN e = true) :
    (∀ c ∈ (_eredis_ev_connect_cb e conn).2, is_connect_call c = false) ∧
    (e.hosts_connected ≠ 0 →
      (_eredis_ev_connect_cb e conn).2 = disconnect_requests e.hosts ∧
      (∀ c ∈ (_eredis_ev_connect_cb e conn).2, c ∉ stop_calls)) ∧
    (e.hosts_connected = 0 → (_eredis_ev_connect_cb e conn).2 = stop_calls) ∧
    (e.hosts_connected = connected_nb e.hosts →
      (∀ h ∈ e.hosts, h.status = HOST_CONNECTED → h.async_ctx ≠ none) →
      ((∃ h ∈ e.hosts, h.status = HOST_CONNECTED) →
        (∀ h ∈ e.hosts, h.status = HOST_CONNECTED →
          ∃ ac, h.async_ctx = some ac ∧
            Call.redisAsyncDisconnect ac ∈ (_eredis_ev_connect_cb e conn).2) ∧
        (∀ c ∈ (_eredis_ev_connect_cb e conn).2, c ∉ stop_calls)) ∧
      ((∀ h ∈ e.hosts, h.status ≠ HOST_CONNECTED) →
        (_eredis_ev_connect_cb e conn).2 = stop_calls)) ∧
    (∀ (evs : List Event) (w : World), (World.init []).run evs = some w →
      IS_SHUTDOWN w.e = true → (_eredis_ev_connect_cb w.e conn).2 = stop_calls) := by
  have hcb := connect_cb_shutdown e conn hsd
  have hnostop : ∀ c ∈ disconnect_requests e.hosts, c ∉ stop_calls := by
    intro c hc hs
    obtain ⟨ac, rfl⟩ := disconnect_requests_mem _ _ hc
    simp [stop_calls] at hs
  have hnz : e.hosts_connected ≠ 0 →
      (_eredis_ev_connect_cb e conn).2 = disconnect_requests e.hosts := by
    intro h; rw [hcb]; simp [h]
  have hz : e.hosts_connected = 0 → (_eredis_ev_connect_cb e conn).2 = stop_calls := by
    intro h; rw [hcb]; simp [h]
  refine ⟨?_, fun h => ⟨hnz h, ?_⟩, hz, fun hcnt hctx => ⟨fun hex => ⟨?_, ?_⟩, ?_⟩, ?_⟩
  · intro c hc
    by_cases h : e.hosts_connected = 0
    · rw [hz h] at hc
      simp only [stop_calls, List.mem_cons, List.mem_singleton, List.not_mem_nil, or_false] at hc
      rcases hc with rfl | rfl | rfl <;> rfl
    · rw [hnz h] at hc
      obtain ⟨ac, rfl⟩ := disconnect_requests_mem _ _ hc
      rfl
  · rw [hnz h]; exact hnostop
  · have hpos := connected_nb_pos e.hosts hex
    rw [hnz (by omega)]
    intro h hm hst
    cases hac : h.async_ctx with
    | none => exact absurd hac (hctx h hm hst)
    | some ac =>
      refine ⟨ac, rfl, ?_⟩
      simp only [disconnect_requests, List.mem_filterMap, List.mem_filter]
      exact ⟨h, ⟨hm, by simpa using hst⟩, by simp [hac]⟩
  · have hpos := connected_nb_pos e.hosts hex
    rw [hnz (by omega)]; exact hnostop
  · intro hno
    exact hz (by rw [hcnt, connected_nb_zero e.hosts hno])
  · intro evs w hrun hs
    have hinv := zero_hosts_run evs (World.init []) w ⟨rfl, rfl, rfl, rfl⟩ hrun
    rw [connect_cb_shutdown w.e conn hs]
    simp [hinv.2.1]

/-! ### The cool-down of a Failed host -/

theorem tmod_twenty_bounds (f : Int) : -20 < f.tmod 20 ∧ f.tmod 20 < 20 := by
  rcases f with n | n
  · have : Int.tmod (Int.ofNat n) 20 = ((n % 20 : Nat) : Int) := rfl
    omega
  · have : Int.tmod (Int.negSucc n) 20 = -(((n + 1) % 20 : Nat) : Int) := rfl
    omega

theorem wrap8_failed_step (f : Int) : wrap8 (wrap8 (f.tmod 20) + 1) = f.tmod 20 + 1 := by
  obtain ⟨a, b⟩ := tmod_twenty_bounds f
  have c : wrap8 (f.tmod 20) = f.tmod 20 := wrap8_of_range (by omega) (by omega)
  rw [c]
  exact wrap8_of_range (by omega) (by omega)

/-- One timer tick on a Failed host, whatever its counter holds. -/
theorem connect_host_failed (e : eredis_t) (i : Nat) (h : host_t) (res : ConnResult)
    (hs : h.status = HOST_FAILED) :
    (attempted (connect_host e i h res).2 = true ↔ 20 ≤ h.failures) ∧
    ((h.failures < 20 ∨ ∀ ac, res ≠ .ok ac) →
      (connect_host e i h res).1 = { h with failures := h.failures.tmod 20 + 1 }) := by
  obtain ⟨hok, hfail⟩ := host_connect_async e i h res
  by_cases hlt : h.failures < 20
  · constructor
    · have : ¬ 20 ≤ h.failures := by omega
      simp [connect_host, hs, HOST_CONNECTED, HOST_FAILED, HOST_FAILED_RETRY_AFTER, hlt,
        attempted, this]
    · intro _
      simp [connect_host, hs, HOST_CONNECTED, HOST_FAILED, HOST_FAILED_RETRY_AFTER, hlt,
        wrap8_failed_step]
  · have hge : 20 ≤ h.failures := by omega
    constructor
    · by_cases hres : ∃ ac, res = .ok ac
      · obtain ⟨ac, hac⟩ := hres
        obtain ⟨r1, r2, r3, r4⟩ := hok ac hac
        simp [connect_host, hs, HOST_CONNECTED, HOST_FAILED, HOST_FAILED_RETRY_AFTER, hlt,
          r1, r3, hge]
      · obtain ⟨r1, r2, r3, r4⟩ := hfail (fun ac hac => hres ⟨ac, hac⟩)
        simp [connect_host, hs, HOST_CONNECTED, HOST_FAILED, HOST_FAILED_RETRY_AFTER, hlt,
          r1, r3, hge]
    · intro hor
      rcases hor with hor | hor
      · exact absurd hor hlt
      · obtain ⟨r1, r2, r3, r4⟩ := hfail hor
        simp [connect_host, hs, HOST_CONNECTED, HOST_FAILED, HOST_FAILED_RETRY_AFTER, hlt,
          r1, r2, wrap8_failed_step]

/-- A failed connect callback on a Failed host, whatever its counter holds. -/
theorem connect_cb_host_failed (h : host_t) (status : Int) (hst : status ≠ REDIS_OK)
    (hs : h.status = HOST_FAILED) :
    connect_cb_host h status =
      { h with failures := h.failures.tmod 20 + 1, async_ctx := none } := by
  simp [connect_cb_host, hst, hs, HOST_FAILED, HOST_FAILED_RETRY_AFTER, wrap8_failed_step]

/-- Ticks whose connect calls all fail keep a Failed host Failed and the counter
at most 20. -/
theorem host_after_ticks_failed (e : eredis_t) (i : Nat) (res : Nat → ConnResult)
    (hres : ∀ n ac, res n ≠ .ok ac) (h : host_t) (hs : h.status = HOST_FAILED)
    (hle : h.failures ≤ 20) (n : Nat) :
    (host_after_ticks e i res n h).status = HOST_FAILED ∧
    (host_after_ticks e i res n h).failures ≤ 20 := by
  induction n with
  | zero => exact ⟨hs, hle⟩
  | succ k ih =>
    have := (connect_host_failed e i _ (res k) ih.1).2 (Or.inr (hres k))
    simp only [host_after_ticks, this]
    have := tmod_twenty_bounds (host_after_ticks e i res k h).failures
    exact ⟨ih.1, by omega⟩

/-- After a tick on which the counter stood at 20 the counter counts the ticks. -/
theorem host_after_ticks_count (e : eredis_t) (i : Nat) (res : Nat → ConnResult)
    (hres : ∀ n ac, res n ≠ .ok ac) (h : host_t) (hs : h.status = HOST_FAILED)
    (hle : h.failures ≤ 20) (n : Nat)
    (h20 : (host_after_ticks e i res n h).failures = 20) (j : Nat) :
    1 ≤ j → j ≤ 20 → (host_after_ticks e i res (n + j) h).failures = j := by
  induction j with
  | zero => intro h1; omega
  | succ k ih =>
    intro _ hk
    have hst := (host_after_ticks_failed e i res hres h hs hle (n + k)).1
    have hstep := (connect_host_failed e i _ (res (n + k)) hst).2 (Or.inr (hres (n + k)))
    have hunf : host_after_ticks e i res (n + (k + 1)) h =
        (connect_host e i (host_after_ticks e i res (n + k) h) (res (n + k))).1 := rfl
    rw [hunf, hstep]
    by_cases hk0 : k = 0
    · subst hk0
      simp only [Nat.add_zero, h20]
      decide
    · have hprev := ih (by omega) (by omega)
      simp only [hprev]
      rw [tmod_twenty (by omega)]
      push_cast
      omega

/-- While the counter of a Failed host is below 20, each tick adds one. -/
theorem host_after_ticks_climb (e : eredis_t) (i : Nat) (res : Nat → ConnResult)
    (hres : ∀ n ac, res n ≠ .ok ac) (h : host_t) (hs : h.status = HOST_FAILED)
    (h0 : 0 ≤ h.failures) (hle : h.failures ≤ 20) (j : Nat) :
    h.failures + j ≤ 20 → (host_after_ticks e i res j h).failures = h.failures + j := by
  induction j with
  | zero => intro _; simp [host_after_ticks]
  | succ k ih =>
    intro hk
    have hst := (host_after_ticks_failed e i res hres h hs hle k).1
    have hstep := (connect_host_failed e i _ (res k) hst).2 (Or.inr (hres k))
    have hunf : host_after_ticks e i res (k + 1) h =
        (connect_host e i (host_after_ticks e i res k h) (res k)).1 := rfl
    have hprev := ih (by push_cast at hk; omega)
    rw [hunf, hstep]
    simp only [hprev]
    rw [tmod_twenty (by omega)]
    push_cast at hk ⊢
    omega

/-- C8: for a Failed host, a timer tick calls connect if and only if the
failures counter is at least 20.  When the counter is below 20 or the call
fails at once, and likewise when a connect callback reports a failure, the host
stays Failed and the counter becomes (failures mod 20) + 1, `mod` being the C
remainder, which for a counter that is not negative is the usual one.  Hence,
for a Failed host whose counter is at most 20 (as it is in the running engine)
and whose connect calls all fail at once: a tick with a connect call is followed
by 19 ticks without one and then by a tick with one, and if the counter is not
negative such a tick comes within the first 21. -/
theorem C8_failed_host_retries_every_twenty_ticks (h : host_t)
    (hs : h.status = HOST_FAILED) :
    (∀ e i res, attempted (connect_host e i h res).2 = true ↔ 20 ≤ h.failures) ∧
    (∀ e i res, (h.failures < 20 ∨ ∀ ac, res ≠ ConnResult.ok ac) →
      (connect_host e i h res).1.status = HOST_FAILED ∧
      (connect_host e i h res).1.failures = h.failures.tmod 20 + 1) ∧
    (∀ status, status ≠ REDIS_OK →
      (connect_cb_host h status).status = HOST_FAILED ∧
      (connect_cb_host h status).failures = h.failures.tmod 20 + 1) ∧
    (0 ≤ h.failures → h.failures.tmod 20 = h.failures % 20) ∧
    (h.failures ≤ 20 → ∀ e i res, (∀ n ac, res n ≠ ConnResult.ok ac) →
      (∀ n, attempt_on_tick e i res n h = true →
        (∀ j, 1 ≤ j → j < 20 → attempt_on_tick e i res (n + j) h = false) ∧
        attempt_on_tick e i res (n + 20) h = true) ∧
      (0 ≤ h.failures → ∃ n, n ≤ 20 ∧ attempt_on_tick e i res n h = true)) := by
  refine ⟨fun e i res => (connect_host_failed e i h res hs).1, fun e i res hor => ?_,
    fun status hst => ?_, fun h0 => tmod_twenty h0, fun hle e i res hres => ⟨fun n hn => ?_,
      fun h0 => ?_⟩⟩
  · rw [(connect_host_failed e i h res hs).2 hor]
    exact ⟨hs, rfl⟩
  · rw [connect_cb_host_failed h status hst hs]
    exact ⟨hs, rfl⟩
  · obtain ⟨hst, hb⟩ := host_after_ticks_failed e i res hres h hs hle n
    have hge := (connect_host_failed e i _ (res n) hst).1.1 hn
    have h20 : (host_after_ticks e i res n h).failures = 20 := by omega
    have hcount := host_after_ticks_count e i res hres h hs hle n h20
    refine ⟨fun j h1 h2 => ?_, ?_⟩
    · have hstj := (host_after_ticks_failed e i res hres h hs hle (n + j)).1
      have hfj := hcount j h1 (by omega)
      have hiff := (connect_host_failed e i _ (res (n + j)) hstj).1
      cases hat : attempt_on_tick e i res (n + j) h with
      | false => rfl
      | true =>
        have := hiff.1 hat
        rw [hfj] at this
        have : (j : Int) < 20 := by exact_mod_cast h2
        omega
    · have hstj := (host_after_ticks_failed e i res hres h hs hle (n + 20)).1
      have hfj := hcount 20 (by omega) (by omega)
      exact (connect_host_failed e i _ (res (n + 20)) hstj).1.2 (by rw [hfj]; decide)
  · refine ⟨(20 - h.failures).toNat, by omega, ?_⟩
    have hf := host_after_ticks_climb e i res hres h hs h0 hle (20 - h.failures).toNat
      (by omega)
    have hst := (host_after_ticks_failed e i res hres h hs hle (20 - h.failures).toNat).1
    exact (connect_host_failed e i _ (res (20 - h.failures).toNat) hst).1.2 (by rw [hf]; omega)

theorem C8_failed_host_retries_every_twenty_ticks_witness :
    demo_failed_host.status = HOST_FAILED ∧
    (attempt_on_tick eredis_new 0 (fun _ => .null) 0 demo_failed_host = true →
      (∀ j, 1 ≤ j → j < 20 →
        attempt_on_tick eredis_new 0 (fun _ => .null) (0 + j) demo_failed_host = false) ∧
      attempt_on_tick eredis_new 0 (fun _ => .null) (0 + 20) demo_failed_host = true) :=
  ⟨rfl, ((C8_failed_host_retries_every_twenty_ticks demo_failed_host rfl).2.2.2.2
    (by decide) eredis_new 0 (fun _ => .null) (fun _ _ hc => by cases hc)).1 0⟩

/-! ### The Ready flag -/

/-- C7: a tick with Ready unset is to set Ready once every host is Connected or
has had a connect failure.  Two hosts are added.  On each of ten ticks the
connect call for host 0 fails at once and the one for host 1 stays in flight;
then a connect of host 1 reports success.  Before the eleventh tick Shutdown and
Ready are unset, host 0 is Disconnected with ten failures and host 1 is
Connected.  On the eleventh tick the connect call for host 0 fails again: host 0
becomes Failed with the counter reset to 0, so after the tick every host is
Connected or has failed to connect, but Ready is still unset and no wakeup is
signalled.  The tick after that sets Ready.  With no host at all the first tick
sets Ready. -/
theorem C7_ready_not_set_when_counter_was_reset :
    ((World.init [(['a'], 6379), (['b'], 6379)]).run
        (List.replicate 10 (Event.tick first_host_refused) ++
          [.connect_cb 1 REDIS_OK])).map
      (fun w =>
        (IS_SHUTDOWN w.e, IS_READY w.e, host_states w.e,
         host_states (_eredis_ev_connect_cb w.e first_host_refused).1,
         IS_READY (_eredis_ev_connect_cb w.e first_host_refused).1,
         signals (_eredis_ev_connect_cb w.e first_host_refused).2,
         IS_READY (_eredis_ev_connect_cb
           (_eredis_ev_connect_cb w.e first_host_refused).1 first_host_refused).1)) =
      some (false, false, [(HOST_DISCONNECTED, 10), (HOST_CONNECTED, 0)],
        [(HOST_FAILED, 0), (HOST_CONNECTED, 0)], false, false, true) ∧
    IS_READY (_eredis_ev_connect_cb eredis_new first_host_refused).1 = true :=
  ⟨rfl, rfl⟩

/-! ### The host file loader -/

/-- One pass of the loop of the loader either adds nothing (a comment line) or
adds one host at the end of the table and counts it. -/
theorem host_file_line_adds (b : List Char) (buf : Nat) (e : eredis_t) (ret : Int)
    (r : List Char × Nat × eredis_t × Int) (hr : host_file_line b buf e ret = some r) :
    (r.2.2.1 = e ∧ r.2.2.2 = ret) ∨
      (∃ t port, r.2.2.1 = eredis_host_add e t port ∧ r.2.2.2 = ret + 1) := by
  unfold host_file_line at hr
  split at hr
  · cases hr
  split at hr
  · cases hr
  split at hr
  · cases hr
  dsimp only at hr
  split at hr
  · cases hr
  split at hr
  · simp only [Option.some.injEq] at hr; subst hr; exact Or.inl ⟨rfl, rfl⟩
  split at hr
  · cases hr
  split at hr
  · cases hr
  split at hr
  · cases hr
  · split at hr
    · cases hr
    · simp only [Option.some.injEq] at hr; subst hr; exact Or.inr ⟨_, _, rfl, rfl⟩
  · split at hr
    · cases hr
    · split at hr
      · cases hr
      · simp only [Option.some.injEq] at hr; subst hr; exact Or.inr ⟨_, _, rfl, rfl⟩

/-- When the loop of the loader ends, the count has grown by the number of hosts
appended to the table. -/
theorem host_file_loop_counts (fuel : Nat) :
    ∀ (b : List Char) (buf : Nat) (e : eredis_t) (ret : Int) (r : Int × eredis_t),
      host_file_loop fuel b buf e ret = .ok r →
      ∃ added : List host_t, r.2.hosts = e.hosts ++ added ∧ r.1 = ret + added.length := by
  induction fuel with
  | zero => intro b buf e ret r h; cases h
  | succ n ih =>
    intro b buf e ret r h
    unfold host_file_loop at h
    split at h
    · cases h
    · split at h
      · cases h; exact ⟨[], by simp, by simp⟩
      · split at h
        · cases h
        · rename_i b1 buf1 e1 ret1 hline
          obtain ⟨added, h1, h2⟩ := ih b1 buf1 e1 ret1 r h
          rcases host_file_line_adds b buf e ret _ hline with ⟨he, hret⟩ | ⟨t, port, he, hret⟩
          · simp only at he hret
            subst he hret
            exact ⟨added, h1, h2⟩
          · simp only at he hret
            subst he hret
            refine ⟨fresh_host t port :: added, ?_, ?_⟩
            · rw [h1]; simp [eredis_host_add, fresh_host]
            · rw [h2]; simp; ring

/-- C9: when the file cannot be opened or stat'ed, when `read` does not return
the size, and when the size exceeds 16384, the loader returns -1 and the instance
is unchanged; a file of at most 16384 bytes that is read in full goes to the
parsing loop, and whenever the loop ends the value returned is the number of
hosts appended to the table.  But the loop does not always end with a count: a
file that holds the single byte `a`, with no newline after it, is accepted; the
loader adds the host `a` (its count stands at 1), sets `buf` to `end + 1`, one
past the terminating NUL, and the next test `*buf` reads outside the two bytes
of the buffer: the run has no defined result. -/
theorem C9_host_file_overruns_without_final_newline :
    (∀ e, eredis_host_file e .open_fails = .ok (-1, e)) ∧
    (∀ e, eredis_host_file e .fstat_fails = .ok (-1, e)) ∧
    (∀ e content nread, wrap32 nread ≠ (content.length : Int) →
      eredis_host_file e (.file content nread) = .ok (-1, e)) ∧
    (∀ e content nread, 16384 < content.length →
      eredis_host_file e (.file content nread) = .ok (-1, e)) ∧
    (∀ e content, content.length ≤ 16384 →
      eredis_host_file e (.file content content.length) =
        host_file_loop (content.length + 2) (content ++ [NUL]) 0 e 0) ∧
    (∀ e content r, content.length ≤ 16384 →
      eredis_host_file e (.file content content.length) = .ok r →
      ∃ added : List host_t, r.2.hosts = e.hosts ++ added ∧ r.1 = added.length) ∧
    eredis_host_file eredis_new (.file ['a'] 1) = .error .out_of_bounds ∧
    (host_file_line ['a', NUL] 0 eredis_new 0).map (fun r => (r.2.1, r.2.2.2)) = some (2, 1) := by
  have hacc : ∀ (e : eredis_t) (content : List Char), content.length ≤ 16384 →
      eredis_host_file e (.file content content.length) =
        host_file_loop (content.length + 2) (content ++ [NUL]) 0 e 0 := by
    intro e content h
    have hw : wrap32 (content.length : Int) = content.length := by
      unfold wrap32; omega
    have : ¬ ((content.length : Int) > 16384) := by
      have : (content.length : Int) ≤ 16384 := by exact_mod_cast h
      omega
    simp [eredis_host_file, hw, this]
  refine ⟨fun e => rfl, fun e => rfl, fun e content nread h => ?_,
    fun e content nread h1 => ?_, hacc, fun e content r h hr => ?_, rfl, rfl⟩
  · simp [eredis_host_file, h]
  · by_cases h2 : content.length < 2147483648
    · have hw : wrap32 (content.length : Int) = content.length := by
        unfold wrap32; omega
      have : (16384 : Int) < content.length := by exact_mod_cast h1
      simp [eredis_host_file, hw, this]
    · have hne : wrap32 nread ≠ (content.length : Int) := by
        unfold wrap32; omega
      simp [eredis_host_file, hne]
  · rw [hacc e content h] at hr
    obtain ⟨added, h1, h2⟩ := host_file_loop_counts _ _ _ _ _ _ hr
    exact ⟨added, h1, by simpa using h2⟩

/-- C10: the file `a \n` (the host, one space, a newline) is accepted and the
loader adds one host whose target is `a` followed by the space: the blank
before the newline is not trimmed.  Blanks in front of the host are trimmed:
the file ` a\n` adds the target `a`. -/
theorem C10_host_file_keeps_trailing_blank :
    (eredis_host_file eredis_new (.file ['a', ' ', '\n'] 3)).map
        (fun r => (r.1, r.2.hosts.map (fun h => h.target))) = .ok (1, [['a', ' ']]) ∧
    (eredis_host_file eredis_new (.file [' ', 'a', '\n'] 3)).map
        (fun r => (r.1, r.2.hosts.map (fun h => h.target))) = .ok (1, [['a']]) :=
  ⟨rfl, rfl⟩

/-! ### Adding hosts -/

theorem host_add_foldl (adds : List (List Char × Int)) :
    ∀ e : eredis_t,
      (adds.foldl (fun e a => eredis_host_add e a.1 a.2) e).hosts =
        e.hosts ++ adds.map (fun a => fresh_host a.1 a.2) ∧
      (e.hosts_nb ≤ e.hosts_alloc →
        (adds.foldl (fun e a => eredis_host_add e a.1 a.2) e).hosts_nb ≤
          (adds.foldl (fun e a => eredis_host_add e a.1 a.2) e).hosts_alloc) := by
  induction adds with
  | nil => intro e; exact ⟨by simp, fun h => h⟩
  | cons a rest ih =>
    intro e
    obtain ⟨h1, h2⟩ := ih (eredis_host_add e a.1 a.2)
    refine ⟨?_, fun hle => ?_⟩
    · simp only [List.foldl_cons, h1, List.map_cons]
      simp [eredis_host_add, fresh_host]
    · simp only [List.foldl_cons]
      apply h2
      simp only [eredis_host_add, eredis_t.hosts_nb, hle, if_true, List.length_append,
        List.length_singleton]
      simp only [eredis_t.hosts_nb] at hle
      push_cast
      omega

/-- C12: `eredis_host_add` appends.  After the call `hosts_nb` is one more; the
entry at the old `hosts_nb`, which is the last one, has the given target, status
Disconnected, failures 0 and no async context; every entry that was in the table
is still at its index with all its fields.  Hence after any sequence of calls on
a fresh instance the table holds the hosts in the order they were added, the
first one at index 0; and on such an instance the test `hosts_nb <= hosts_alloc`
holds before every call, so the table is grown and the slot written lies inside
the allocation. -/
theorem C12_host_add_appends :
    (∀ (e : eredis_t) (target : List Char) (port : Int),
      (eredis_host_add e target port).hosts_nb = e.hosts_nb + 1 ∧
      (eredis_host_add e target port).hosts.get? e.hosts.length =
        some { async_ctx := none, target := target, port := wrap16 port,
               status := HOST_DISCONNECTED, failures := 0 } ∧
      (eredis_host_add e target port).hosts.getLast? =
        (eredis_host_add e target port).hosts.get? e.hosts.length ∧
      (∀ (i : Nat) (h : host_t), e.hosts.get? i = some h →
        (eredis_host_add e target port).hosts.get? i = some h)) ∧
    (∀ adds : List (List Char × Int),
      (World.init adds).e.hosts = adds.map (fun a => fresh_host a.1 a.2) ∧
      (World.init adds).e.hosts.head? = (adds.head?).map (fun a => fresh_host a.1 a.2) ∧
      (World.init adds).e.hosts_nb ≤ (World.init adds).e.hosts_alloc ∧
      (∀ (target : List Char) (port : Int),
        (eredis_host_add (World.init adds).e target port).hosts_nb <
          (eredis_host_add (World.init adds).e target port).hosts_alloc)) := by
  refine ⟨fun e target port => ⟨?_, ?_, ?_, fun i h hi => ?_⟩, fun adds => ?_⟩
  · simp [eredis_host_add, eredis_t.hosts_nb]
  · simp [eredis_host_add]
  · simp [eredis_host_add]
  · have hlt : i < e.hosts.length := by
      rcases Nat.lt_or_ge i e.hosts.length with h1 | h1
      · exact h1
      · rw [List.get?_eq_none.2 h1] at hi; cases hi
    simp only [eredis_host_add]
    rw [List.get?_eq_getElem?] at hi ⊢
    rw [List.getElem?_append_left hlt]
    exact hi
  · obtain ⟨h1, h2⟩ := host_add_foldl adds eredis_new
    have hh : (World.init adds).e.hosts = adds.map (fun a => fresh_host a.1 a.2) := by
      simpa [World.init, eredis_new] using h1
    have hle : (World.init adds).e.hosts_nb ≤ (World.init adds).e.hosts_alloc :=
      h2 (by simp [eredis_new, eredis_t.hosts_nb])
    refine ⟨hh, ?_, hle, fun target port => ?_⟩
    · rw [hh]; cases adds <;> simp
    · simp only [eredis_host_add, eredis_t.hosts_nb, List.length_append, List.length_singleton]
      simp only [eredis_t.hosts_nb] at hle
      rw [if_pos hle]
      push_cast
      omega

/-! ### The synchronous connect -/

/-- C13: a reader connects to a local-socket host (port 0) of a fresh instance,
whose `sync_to` is 5 seconds, and the connect succeeds: the calls made are
`redisConnectUnix` and the store of `maxbuf`, and no `redisSetTimeout`.  For
every host with port 0 no successful synchronous connect sets a timeout; for
every host with a port other than 0 and every `sync_to` other than zero it sets
the timeout to `sync_to`. -/
theorem C13_reader_on_local_socket_gets_no_timeout :
    _host_connect eredis_new 0 demo_unix_host (some demo_reader) (.ok 3) =
      (1, demo_unix_host, some { ctx := some 3, host := some 0 },
        [.redisConnectUnix demo_unix_host.target, .set_reader_maxbuf 3]) ∧
    (eredis_new.sync_to_sec, eredis_new.sync_to_usec) = (5, 0) ∧
    (∀ (e : eredis_t) (i : Nat) (h : host_t) (rd : eredis_reader_t) (c : Nat), h.port = 0 →
      ∀ x ∈ (_host_connect e i h (some rd) (.ok c)).2.2.2, is_set_timeout x = false) ∧
    (∀ (e : eredis_t) (i : Nat) (h : host_t) (rd : eredis_reader_t) (c : Nat), h.port ≠ 0 →
      (e.sync_to_sec ≠ 0 ∨ e.sync_to_usec ≠ 0) →
      Call.redisSetTimeout c e.sync_to_sec e.sync_to_usec ∈
        (_host_connect e i h (some rd) (.ok c)).2.2.2) := by
  refine ⟨rfl, rfl, fun e i h rd c hp x hx => ?_, fun e i h rd c hp hto => ?_⟩
  · simp only [_host_connect, hp, ne_eq, not_true_eq_false, if_false, List.append_nil,
      List.singleton_append, List.mem_cons, List.mem_singleton, List.not_mem_nil,
      or_false] at hx
    rcases hx with rfl | rfl <;> rfl
  · simp [_host_connect, hp, hto]

/-! ### The two failure paths of a Disconnected host -/

/-- A failed connect callback and a connect call of the timer that fails at once
leave a Disconnected host with the same status and the same counter. -/
theorem failure_paths_agree (e : eredis_t) (i : Nat) (h : host_t) (status : Int)
    (res : ConnResult) (hs : h.status = HOST_DISCONNECTED) (hst : status ≠ REDIS_OK)
    (hres : ∀ ac, res ≠ .ok ac) :
    (connect_cb_host h status).status = (connect_host e i h res).1.status ∧
    (connect_cb_host h status).failures = (connect_host e i h res).1.failures := by
  obtain ⟨r1, r2, _, _⟩ := (host_connect_async e i h res).2 hres
  by_cases hgt : wrap8 (h.failures + 1) > HOST_DISCONNECTED_RETRIES
  · simp [connect_cb_host, connect_host, hst, hs, HOST_DISCONNECTED, HOST_CONNECTED,
      HOST_FAILED, r1, r2, hgt]
  · simp [connect_cb_host, connect_host, hst, hs, HOST_DISCONNECTED, HOST_CONNECTED,
      HOST_FAILED, r1, r2, hgt]

/-- C16: a host that is Disconnected with failures 0 is, right after its k-th
connect failure in a row, still Disconnected with failures = k for every k from 1
to 10, and Failed with failures 0 for k = 11: it becomes Failed on the 11th
failure and not before.  A connect failure is a failed connect callback or a
connect call of the timer that fails at once, and on a Disconnected host, whatever
its counter, the two apply the same update to status and failures. -/
theorem C16_disconnected_host_fails_on_eleventh (k : Nat) (h0 h : host_t)
    (hs : h0.status = HOST_DISCONNECTED) (hf : h0.failures = 0)
    (hrun : AfterFailures k h0 h) :
    (1 ≤ k → k ≤ 10 → h.status = HOST_DISCONNECTED ∧ h.failures = k) ∧
    (k = 11 → h.status = HOST_FAILED ∧ h.failures = 0) ∧
    (∀ (e : eredis_t) (i : Nat) (d : host_t) (status : Int) (res : ConnResult),
      d.status = HOST_DISCONNECTED → status ≠ REDIS_OK → (∀ ac, res ≠ ConnResult.ok ac) →
      (connect_cb_host d status).status = (connect_host e i d res).1.status ∧
      (connect_cb_host d status).failures = (connect_host e i d res).1.failures) := by
  obtain ⟨a, b, _⟩ := after_failures_state k h0 h hs hf hrun
  exact ⟨fun _ hk => a hk, b, fun e i d status res hd hst hres =>
    failure_paths_agree e i d status res hd hst hres⟩

theorem C16_disconnected_host_fails_on_eleventh_witness :
    (fresh_host ['h'] 6379).status = HOST_DISCONNECTED ∧
    (fresh_host ['h'] 6379).failures = 0 ∧
    AfterFailures 10 (fresh_host ['h'] 6379) (failed_callbacks 10 (fresh_host ['h'] 6379)) ∧
    (failed_callbacks 10 (fresh_host ['h'] 6379)).status = HOST_DISCONNECTED ∧
    (failed_callbacks 10 (fresh_host ['h'] 6379)).failures = (10 : Nat) :=
  ⟨rfl, rfl, after_failed_callbacks 10 _,
    (C16_disconnected_host_fails_on_eleventh 10 _ _ rfl rfl
      (after_failed_callbacks 10 _)).1 (by decide) (by decide)⟩

/-! ### The port of a host -/

/-- C18: `eredis_host_add (e, "h", 40000)` stores the port -25536 (the field is a
signed 16-bit bit-field), and the connect call made for the host by the timer is
`redisAsyncConnect ("h", -25536)`.  Ports from 0 to 32767 are stored as given. -/
theorem C18_port_40000_is_stored_negative :
    (eredis_host_add eredis_new ['h'] 40000).hosts.map (fun h => h.port) = [-25536] ∧
    (_eredis_ev_connect_cb (eredis_host_add eredis_new ['h'] 40000) (fun _ => .ok 1)).2.head? =
      some (.redisAsyncConnect ['h'] (-25536)) ∧
    (∀ (e : eredis_t) (target : List Char) (p : Int), 0 ≤ p → p ≤ 32767 →
      (eredis_host_add e target p).hosts.getLast?.map (fun h => h.port) = some p) := by
  refine ⟨rfl, rfl, fun e target p h0 h1 => ?_⟩
  have : wrap16 p = p := by unfold wrap16; omega
  simp [eredis_host_add, this]

/-! ### The host file loader: empty lines -/

/-- C20: the file holds the single byte newline, one empty line.  It is accepted,
the loader returns 1 and the host it has added has the empty string as target
(and port 0).  A line of blanks does the same: the file of a space and a newline
adds the empty target too. -/
theorem C20_empty_line_adds_empty_target :
    (eredis_host_file eredis_new (.file ['\n'] 1)).map
        (fun r => (r.1, r.2.hosts.map (fun h => (h.target, h.port)))) = .ok (1, [([], 0)]) ∧
    (eredis_host_file eredis_new (.file [' ', '\n'] 2)).map
        (fun r => (r.1, r.2.hosts.map (fun h => (h.target, h.port)))) = .ok (1, [([], 0)]) :=
  ⟨rfl, rfl⟩

/-! ### Status and counter of the hosts in the running engine -/

theorem host_ok_bounds (h : host_t) (hok : host_ok h) : 0 ≤ h.failures ∧ h.failures ≤ 20 := by
  rcases hok with ⟨_, a, b⟩ | ⟨_, a⟩ | ⟨_, a, b⟩ <;> omega

theorem fresh_host_ok (target : List Char) (port : Int) : host_ok (fresh_host target port) :=
  Or.inl ⟨rfl, by simp [fresh_host], by simp [fresh_host]⟩

theorem connect_cb_host_ok (h : host_t) (status : Int) (hok : host_ok h) :
    host_ok (connect_cb_host h status) := by
  by_cases hst : status = REDIS_OK
  · right; left
    simp [connect_cb_host, hst]
  · obtain ⟨b0, b1⟩ := host_ok_bounds h hok
    obtain ⟨c1, c2, c3⟩ := connect_cb_host_err h status hst b0 b1
    rcases hok with ⟨hs, a, b⟩ | ⟨hs, a⟩ | ⟨hs, a, b⟩
    · by_cases hlt : h.failures < 10
      · obtain ⟨x, y⟩ := c1 hs hlt
        exact Or.inl ⟨x, by omega, by omega⟩
      · obtain ⟨x, y⟩ := c2 hs (by omega)
        exact Or.inr (Or.inr ⟨x, by omega, by omega⟩)
    · right; left
      simp [connect_cb_host, hst, hs, a, HOST_CONNECTED, HOST_FAILED, HOST_DISCONNECTED]
    · obtain ⟨x, y⟩ := c3 hs
      exact Or.inr (Or.inr ⟨x, by omega, by omega⟩)

theorem disconnect_cb_host_ok (h : host_t) : host_ok (disconnect_cb_host h) :=
  Or.inl ⟨rfl, by simp [disconnect_cb_host], by simp [disconnect_cb_host]⟩

theorem connect_host_ok (e : eredis_t) (i : Nat) (h : host_t) (res : ConnResult)
    (hok : host_ok h) : host_ok (connect_host e i h res).1 := by
  obtain ⟨b0, b1⟩ := host_ok_bounds h hok
  obtain ⟨cD, cF⟩ := connect_host_cases e i h res b0 b1
  rcases hok with ⟨hs, a, b⟩ | ⟨hs, a⟩ | ⟨hs, a, b⟩
  · obtain ⟨_, k1, k2⟩ := cD hs
    cases hr : registers_connect_cb (connect_host e i h res).2 with
    | true =>
      obtain ⟨x, y⟩ := k1 hr
      exact Or.inl ⟨x, by omega, by omega⟩
    | false =>
      obtain ⟨l1, l2⟩ := k2 hr
      by_cases hlt : h.failures < 10
      · obtain ⟨x, y⟩ := l1 hlt
        exact Or.inl ⟨x, by omega, by omega⟩
      · obtain ⟨x, y⟩ := l2 (by omega)
        exact Or.inr (Or.inr ⟨x, by omega, by omega⟩)
  · right; left
    simp [connect_host, hs, a]
  · obtain ⟨lo, hi⟩ := cF hs
    by_cases hlt : h.failures < 20
    · obtain ⟨_, x, y⟩ := lo hlt
      exact Or.inr (Or.inr ⟨x, by omega, by omega⟩)
    · obtain ⟨_, k1, k2⟩ := hi (by omega)
      cases hr : registers_connect_cb (connect_host e i h res).2 with
      | true =>
        obtain ⟨x, y⟩ := k1 hr
        exact Or.inr (Or.inr ⟨x, by omega, by omega⟩)
      | false =>
        obtain ⟨x, y⟩ := k2 hr
        exact Or.inr (Or.inr ⟨x, by omega, by omega⟩)

theorem connect_hosts_ok (e : eredis_t) (conn : Nat → ConnResult) (hs : List host_t) :
    ∀ i : Nat, (∀ h ∈ hs, host_ok h) → ∀ h ∈ (connect_hosts e conn i hs).1, host_ok h := by
  induction hs with
  | nil => intro i _ h hm; simp [connect_hosts] at hm
  | cons x xs ih =>
    intro i hall h hm
    simp only [connect_hosts, List.mem_cons] at hm
    rcases hm with rfl | hm
    · exact connect_host_ok e i x (conn i) (hall x (List.mem_cons_self _ _))
    · exact ih (i + 1) (fun y hy => hall y (List.mem_cons_of_mem _ hy)) h hm

theorem set_hosts_ok (hs : List host_t) (i : Nat) (x : host_t)
    (hall : ∀ h ∈ hs, host_ok h) (hx : host_ok x) : ∀ h ∈ hs.set i x, host_ok h := by
  intro h hm
  rcases List.mem_or_eq_of_mem_set hm with h1 | rfl
  · exact hall h h1
  · exact hx

/-- The host table after the timer callback. -/
theorem connect_cb_hosts_eq (e : eredis_t) (conn : Nat → ConnResult) :
    (_eredis_ev_connect_cb e conn).1.hosts =
      if IS_SHUTDOWN e = true then e.hosts else (connect_hosts e conn 0 e.hosts).1 := by
  unfold _eredis_ev_connect_cb
  by_cases hsd : IS_SHUTDOWN e = true
  · simp only [hsd, if_true]
    split <;> rfl
  · simp only [hsd, if_false]
    rcases hc : connect_hosts e conn 0 e.hosts with ⟨hs1, cs1⟩
    simp only
    split_ifs <;> rfl

/-- The timer callback keeps every host in one of the states of `host_ok`. -/
theorem connect_cb_hosts_ok (e : eredis_t) (conn : Nat → ConnResult)
    (hall : ∀ h ∈ e.hosts, host_ok h) : ∀ h ∈ (_eredis_ev_connect_cb e conn).1.hosts, host_ok h := by
  rw [connect_cb_hosts_eq]
  split
  · exact hall
  · exact connect_hosts_ok e conn e.hosts 0 hall

theorem redis_connect_cb_hosts_ok (e : eredis_t) (i : Nat) (status : Int)
    (hall : ∀ h ∈ e.hosts, host_ok h) : ∀ h ∈ (_redis_connect_cb e i status).hosts, host_ok h := by
  unfold _redis_connect_cb
  cases hg : e.hosts.get? i with
  | none => exact hall
  | some x =>
    have hx : host_ok x := hall x (List.get?_mem hg)
    have := set_hosts_ok e.hosts i _ hall (connect_cb_host_ok x status hx)
    simp only
    split <;> exact this

theorem redis_disconnect_cb_hosts_ok (e : eredis_t) (i : Nat)
    (hall : ∀ h ∈ e.hosts, host_ok h) : ∀ h ∈ (_redis_disconnect_cb e i).hosts, host_ok h := by
  unfold _redis_disconnect_cb
  cases hg : e.hosts.get? i with
  | none => exact hall
  | some x =>
    have := set_hosts_ok e.hosts i _ hall (disconnect_cb_host_ok x)
    simp only
    split <;> exact this

/-- Every event keeps every host in one of the states of `host_ok`. -/
theorem step_hosts_ok (w w1 : World) (ev : Event) (hall : ∀ h ∈ w.e.hosts, host_ok h)
    (hstep : w.step ev = some w1) : ∀ h ∈ w1.e.hosts, host_ok h := by
  cases ev with
  | tick conn =>
    simp only [World.step, Option.some.injEq] at hstep
    subst hstep
    exact connect_cb_hosts_ok w.e conn hall
  | connect_cb i status =>
    by_cases hi : i ∈ w.inflight
    · simp only [World.step, hi, if_true, Option.some.injEq] at hstep
      subst hstep
      exact redis_connect_cb_hosts_ok w.e i status hall
    · simp [World.step, hi] at hstep
  | disconnect_cb i =>
    by_cases hi : i ∈ w.estab
    · simp only [World.step, hi, if_true, Option.some.injEq] at hstep
      subst hstep
      exact redis_disconnect_cb_hosts_ok w.e i hall
    · simp [World.step, hi] at hstep
  | trigger =>
    simp only [World.step, Option.some.injEq] at hstep
    subst hstep
    simp only [(trigger_keeps_hosts w.e).1]
    exact hall
  | send =>
    obtain ⟨r, hr, _, _, h3, _⟩ :=
      send_loop_returns (w.e.wqueue.fst.length + 1) { w.e with send_async_pending := 0 }
        (Nat.lt_succ_self _)
    have hr2 : _eredis_ev_send_cb w.e = some r := hr
    by_cases hs : w.signalled = true
    · simp only [World.step, hs, if_true, hr2, Option.some.injEq] at hstep
      subst hstep
      simp only [h3]
      exact hall
    · simp [World.step, hs] at hstep
  | write s l =>
    simp only [World.step, Option.some.injEq] at hstep
    subst hstep
    simp only [(trigger_keeps_hosts (_eredis_wqueue_push w.e s l)).1]
    exact hall
  | shutdown =>
    simp only [World.step, Option.some.injEq] at hstep
    subst hstep
    exact hall

theorem run_hosts_ok (evs : List Event) :
    ∀ (w w1 : World), (∀ h ∈ w.e.hosts, host_ok h) → w.run evs = some w1 →
      ∀ h ∈ w1.e.hosts, host_ok h := by
  induction evs with
  | nil =>
    intro w w1 hall hrun
    simp only [World.run, Option.some.injEq] at hrun
    subst hrun
    exact hall
  | cons ev rest ih =>
    intro w w1 hall hrun
    cases hs : w.step ev with
    | none => simp [World.run, hs] at hrun
    | some w2 =>
      simp only [World.run, hs] at hrun
      exact ih w2 w1 (step_hosts_ok w w2 ev hall hs) hrun

theorem init_hosts_ok (adds : List (List Char × Int)) :
    ∀ h ∈ (World.init adds).e.hosts, host_ok h := by
  intro h hm
  have hh := (host_add_foldl adds eredis_new).1
  have : (World.init adds).e.hosts = adds.map (fun a => fresh_host a.1 a.2) := by
    simpa [World.init, eredis_new] using hh
  rw [this, List.mem_map] at hm
  obtain ⟨a, _, rfl⟩ := hm
  exact fresh_host_ok _ _

/-- C14: in every state the engine reaches from a fresh instance by host_add
calls followed by any sequence of events (timer ticks, connect callbacks with
success or failure, disconnect callbacks, and also triggers, drains, appends and
shutdown), every host whose status is Connected has failures = 0; every status
is Disconnected, Connected or Failed, so a counter that is not 0 belongs to a
host that is Disconnected or Failed. -/
theorem C14_connected_host_has_no_failures (adds : List (List Char × Int))
    (evs : List Event) (w : World) (hrun : (World.init adds).run evs = some w) :
    ∀ h ∈ w.e.hosts,
      (h.status = HOST_CONNECTED → h.failures = 0) ∧
      (h.failures ≠ 0 → h.status = HOST_DISCONNECTED ∨ h.status = HOST_FAILED) := by
  intro h hm
  have hok := run_hosts_ok evs _ w (init_hosts_ok adds) hrun h hm
  rcases hok with ⟨hs, a, b⟩ | ⟨hs, a⟩ | ⟨hs, a, b⟩
  · exact ⟨fun hc => (by rw [hs] at hc; cases hc), fun _ => Or.inl hs⟩
  · exact ⟨fun _ => a, fun hne => absurd a hne⟩
  · exact ⟨fun hc => (by rw [hs] at hc; cases hc), fun _ => Or.inr hs⟩

theorem C14_connected_host_has_no_failures_witness :
    (World.init [(['h'], 6379)]).run [.tick (fun _ => .ok 1), .connect_cb 0 REDIS_OK] =
      some demo_connected_world ∧
    ∀ h ∈ demo_connected_world.e.hosts,
      (h.status = HOST_CONNECTED → h.failures = 0) ∧
      (h.failures ≠ 0 → h.status = HOST_DISCONNECTED ∨ h.status = HOST_FAILED) :=
  ⟨rfl, C14_connected_host_has_no_failures [(['h'], 6379)]
    [.tick (fun _ => .ok 1), .connect_cb 0 REDIS_OK] demo_connected_world rfl⟩

/-! ### The async context of a host -/

/-- C15: one host is added and the timer fires twice before the first connect
attempt reports, so two contexts are in flight for the host.  First run: one
context reports success and the other failure.  The failure path clears
`async_ctx`, so the host is Connected with a NULL `async_ctx` and nothing in
flight; the next tick sets Ready, a command is appended, and the drain that is
now scheduled submits the command to the host with the NULL context.  Second
run: one context reports failure while the other is still in flight; the host
has a NULL `async_ctx` although a connect attempt for it is in flight. -/
theorem C15_connected_host_with_null_context :
    ((World.init [(['h'], 6379)]).run
        [.tick (fun _ => .ok 1), .tick (fun _ => .ok 2),
         .connect_cb 0 REDIS_OK, .connect_cb 0 REDIS_ERR,
         .tick (fun _ => .null), .write ['x'] 1]).map
      (fun w => (host_states w.e, w.e.hosts.map (fun h => h.async_ctx), w.inflight,
        w.signalled, (_eredis_ev_send_cb w.e).map (fun r => r.2))) =
      some ([(HOST_CONNECTED, 0)], [none], [], true,
        some [.redisAsyncCommand none ['x'] 1]) ∧
    ((World.init [(['h'], 6379)]).run
        [.tick (fun _ => .ok 1), .tick (fun _ => .ok 2), .connect_cb 0 REDIS_ERR]).map
      (fun w => (host_states w.e, w.e.hosts.map (fun h => h.async_ctx), w.inflight)) =
      some ([(HOST_DISCONNECTED, 1)], [none], [0]) :=
  ⟨rfl, rfl⟩

/-! ### The Ready flag and the wakeup -/

theorem land_lor_ready (f : Nat) : (f ||| EREDIS_F_READY) &&& EREDIS_F_READY ≠ 0 := by
  intro h
  have := congrArg (fun x => x.testBit 2) h
  simp only [EREDIS_F_READY, Nat.testBit_and, Nat.testBit_or, Nat.zero_testBit] at this
  have h4 : Nat.testBit 4 2 = true := by decide
  simp [h4] at this

theorem land_lor_shutdown (f : Nat) :
    (f ||| EREDIS_F_SHUTDOWN) &&& EREDIS_F_READY = f &&& EREDIS_F_READY := by
  apply Nat.eq_of_testBit_eq
  intro i
  simp only [EREDIS_F_READY, EREDIS_F_SHUTDOWN, Nat.testBit_and, Nat.testBit_or]
  by_cases hi : i = 2
  · subst hi
    have : Nat.testBit 8 2 = false := by decide
    simp [this]
  · have : Nat.testBit 4 i = false := by
      have h4 : (4 : Nat) = 2 ^ 2 := rfl
      rw [h4, Nat.testBit_two_pow]
      simp; omega
    simp [this]

theorem is_ready_set_ready (e : eredis_t) : IS_READY (SET_READY e) = true := by
  simp [IS_READY, SET_READY, land_lor_ready]

theorem is_ready_shutdown (e : eredis_t) : IS_READY (eredis_shutdown e) = IS_READY e := by
  simp [IS_READY, eredis_shutdown, SET_SHUTDOWN, land_lor_shutdown]

/-- The calls `_host_connect` makes without a reader set up an async connection. -/
theorem host_connect_calls (e : eredis_t) (i : Nat) (h : host_t) (res : ConnResult) :
    ∀ c ∈ (_host_connect e i h none res).2.2.2, is_async_setup c = true := by
  have hall : ((_host_connect e i h none res).2.2.2).all is_async_setup = true := by
    cases res <;> by_cases hp : h.port = 0 <;> simp [_host_connect, hp, is_async_setup]
  exact fun c hc => List.all_eq_true.1 hall c hc

/-- The calls the timer makes for one host set up an async connection. -/
theorem connect_host_calls (e : eredis_t) (i : Nat) (h : host_t) (res : ConnResult) :
    ∀ c ∈ (connect_host e i h res).2, is_async_setup c = true := by
  have hc := host_connect_calls e i h res
  rcases hh : _host_connect e i h none res with ⟨ret, h1, r, cs⟩
  rw [hh] at hc
  simp only [connect_host, hh]
  split_ifs <;> first
    | exact hc
    | (intro c hm; cases hm)

theorem connect_hosts_calls (e : eredis_t) (conn : Nat → ConnResult) (hs : List host_t) :
    ∀ i : Nat, ∀ c ∈ (connect_hosts e conn i hs).2, is_async_setup c = true := by
  induction hs with
  | nil => intro i c hm; simp [connect_hosts] at hm
  | cons x xs ih =>
    intro i c hm
    simp only [connect_hosts, List.mem_append] at hm
    rcases hm with hm | hm
    · exact connect_host_calls e i x (conn i) c hm
    · exact ih (i + 1) c hm

/-- The timer callback without Shutdown: the hosts are stepped, and Ready and the
pending flag are set, and the wakeup signalled, when Ready was unset and every
host counts. -/
theorem connect_cb_running (e : eredis_t) (conn : Nat → ConnResult)
    (hsd : IS_SHUTDOWN e = false) :
    _eredis_ev_connect_cb e conn =
      if IS_READY e = false ∧
          ready_nb (connect_hosts e conn 0 e.hosts).1 =
            ((connect_hosts e conn 0 e.hosts).1.length : Int) then
        ({ e with hosts := (connect_hosts e conn 0 e.hosts).1,
                  flags := e.flags ||| EREDIS_F_READY, send_async_pending := 1 },
          (connect_hosts e conn 0 e.hosts).2 ++ [.ev_async_send])
      else ({ e with hosts := (connect_hosts e conn 0 e.hosts).1 },
        (connect_hosts e conn 0 e.hosts).2) := by
  unfold _eredis_ev_connect_cb
  simp only [hsd, Bool.false_eq_true, if_false]
  rcases hc : connect_hosts e conn 0 e.hosts with ⟨hs1, cs1⟩
  have hr : IS_READY { e with hosts := hs1 } = IS_READY e := rfl
  simp only [hr, eredis_t.hosts_nb, SET_READY]
  cases hrd : IS_READY e <;> simp

theorem is_ready_congr (e1 e2 : eredis_t) (h : e1.flags = e2.flags) :
    IS_READY e1 = IS_READY e2 := by
  simp [IS_READY, h]

theorem not_signals (cs : List Call) (h : ∀ c ∈ cs, c ≠ Call.ev_async_send) :
    signals cs = false := by
  cases hs : signals cs with
  | false => rfl
  | true =>
    simp only [signals, List.any_eq_true, decide_eq_true_eq] at hs
    obtain ⟨c, hm, hc⟩ := hs
    exact absurd hc (h c hm)

theorem redis_connect_cb_flags (e : eredis_t) (i : Nat) (status : Int) :
    (_redis_connect_cb e i status).flags = e.flags ∧
    (_redis_connect_cb e i status).send_async_pending = e.send_async_pending := by
  unfold _redis_connect_cb
  split
  · exact ⟨rfl, rfl⟩
  · split <;> exact ⟨rfl, rfl⟩

theorem redis_disconnect_cb_flags (e : eredis_t) (i : Nat) :
    (_redis_disconnect_cb e i).flags = e.flags ∧
    (_redis_disconnect_cb e i).send_async_pending = e.send_async_pending := by
  unfold _redis_disconnect_cb
  split
  · exact ⟨rfl, rfl⟩
  · split <;> exact ⟨rfl, rfl⟩

/-- The timer callback and the Ready flag: it never clears Ready, it signals the
wakeup only together with Ready, it sets the pending flag only together with
Ready, and it submits no command. -/
theorem connect_cb_ready (e : eredis_t) (conn : Nat → ConnResult) :
    (IS_READY e = true → IS_READY (_eredis_ev_connect_cb e conn).1 = true) ∧
    (signals (_eredis_ev_connect_cb e conn).2 = true →
      IS_READY (_eredis_ev_connect_cb e conn).1 = true) ∧
    ((_eredis_ev_connect_cb e conn).1.send_async_pending ≠ 0 →
      e.send_async_pending ≠ 0 ∨ IS_READY (_eredis_ev_connect_cb e conn).1 = true) ∧
    (∀ c ∈ (_eredis_ev_connect_cb e conn).2, is_command c = false) := by
  cases hsd : IS_SHUTDOWN e with
  | true =>
    rw [connect_cb_shutdown e conn hsd]
    have hcalls : ∀ c ∈ (if e.hosts_connected ≠ 0 then disconnect_requests e.hosts
        else stop_calls), c ≠ Call.ev_async_send ∧ is_command c = false := by
      intro c hc
      split at hc
      · obtain ⟨ac, rfl⟩ := disconnect_requests_mem _ _ hc
        exact ⟨by simp, rfl⟩
      · simp only [stop_calls, List.mem_cons, List.mem_singleton, List.not_mem_nil,
          or_false] at hc
        rcases hc with rfl | rfl | rfl <;> exact ⟨by simp, rfl⟩
    refine ⟨fun h => h, fun h => ?_, fun h => Or.inl h, fun c hc => (hcalls c hc).2⟩
    rw [not_signals _ (fun c hc => (hcalls c hc).1)] at h
    cases h
  | false =>
    rw [connect_cb_running e conn hsd]
    have hsetup := connect_hosts_calls e conn e.hosts 0
    have hns : signals (connect_hosts e conn 0 e.hosts).2 = false :=
      not_signals _ (fun c hc hce => by
        have := hsetup c hc
        rw [hce] at this
        cases this)
    split
    · refine ⟨fun _ => ?_, fun _ => ?_, fun _ => Or.inr ?_, fun c hc => ?_⟩
      · simp [IS_READY, land_lor_ready]
      · simp [IS_READY, land_lor_ready]
      · simp [IS_READY, land_lor_ready]
      · simp only [List.mem_append, List.mem_singleton] at hc
        rcases hc with hc | rfl
        · have := hsetup c hc
          cases c <;> first | rfl | cases this
        · rfl
    · refine ⟨fun h => h, fun h => ?_, fun h => Or.inl h, fun c hc => ?_⟩
      · simp only [hns] at h
        cases h
      · have := hsetup c hc
        cases c <;> first | rfl | cases this

/-- Every event keeps the pending flag and the signalled wakeup below Ready, and
keeps Ready set once it is set. -/
theorem step_ready (w w1 : World) (ev : Event)
    (hp : w.e.send_async_pending ≠ 0 → IS_READY w.e = true)
    (hsg : w.signalled = true → IS_READY w.e = true)
    (hstep : w.step ev = some w1) :
    (w1.e.send_async_pending ≠ 0 → IS_READY w1.e = true) ∧
    (w1.signalled = true → IS_READY w1.e = true) ∧
    (IS_READY w.e = true → IS_READY w1.e = true) := by
  cases ev with
  | tick conn =>
    obtain ⟨a, b, c, _⟩ := connect_cb_ready w.e conn
    simp only [World.step, Option.some.injEq] at hstep
    subst hstep
    refine ⟨fun h => ?_, fun h => ?_, a⟩
    · rcases c h with h1 | h1
      · exact a (hp h1)
      · exact h1
    · simp only [Bool.or_eq_true] at h
      rcases h with h | h
      · exact a (hsg h)
      · exact b h
  | connect_cb i status =>
    by_cases hi : i ∈ w.inflight
    · obtain ⟨f1, f2⟩ := redis_connect_cb_flags w.e i status
      have hr := is_ready_congr _ _ f1
      simp only [World.step, hi, if_true, Option.some.injEq] at hstep
      subst hstep
      exact ⟨fun h => by rw [hr]; exact hp (by rwa [f2] at h),
        fun h => by rw [hr]; exact hsg h, fun h => by rw [hr]; exact h⟩
    · simp [World.step, hi] at hstep
  | disconnect_cb i =>
    by_cases hi : i ∈ w.estab
    · obtain ⟨f1, f2⟩ := redis_disconnect_cb_flags w.e i
      have hr := is_ready_congr _ _ f1
      simp only [World.step, hi, if_true, Option.some.injEq] at hstep
      subst hstep
      exact ⟨fun h => by rw [hr]; exact hp (by rwa [f2] at h),
        fun h => by rw [hr]; exact hsg h, fun h => by rw [hr]; exact h⟩
    · simp [World.step, hi] at hstep
  | trigger =>
    simp only [World.step, Option.some.injEq] at hstep
    subst hstep
    rcases trigger_cases w.e with ⟨h, _⟩ | ⟨h, hc⟩
    · simp only [h]
      exact ⟨hp, fun hs => hsg (by simpa [signals] using hs), fun hr => hr⟩
    · simp only [h]
      have hr : IS_READY { w.e with send_async_pending := 1 } = true := hc.1
      exact ⟨fun _ => hr, fun _ => hr, fun _ => hr⟩
  | send =>
    obtain ⟨r, hr, h1, h2, _, _⟩ :=
      send_loop_returns (w.e.wqueue.fst.length + 1) { w.e with send_async_pending := 0 }
        (Nat.lt_succ_self _)
    have hr2 : _eredis_ev_send_cb w.e = some r := hr
    have hrd : IS_READY r.1 = IS_READY w.e := is_ready_congr _ _ h2
    by_cases hs : w.signalled = true
    · simp only [World.step, hs, if_true, hr2, Option.some.injEq] at hstep
      subst hstep
      refine ⟨fun h => ?_, fun h => ?_, fun h => ?_⟩
      · exact absurd h1 h
      · cases h
      · rw [hrd]; exact h
    · simp [World.step, hs] at hstep
  | write s l =>
    simp only [World.step, Option.some.injEq] at hstep
    subst hstep
    have hrp : IS_READY (_eredis_wqueue_push w.e s l) = IS_READY w.e := rfl
    rcases trigger_cases (_eredis_wqueue_push w.e s l) with ⟨h, _⟩ | ⟨h, hc⟩
    · simp only [h, hrp]
      exact ⟨hp, fun hs => hsg (by simpa [signals] using hs), fun hr => hr⟩
    · simp only [h]
      have hr : IS_READY { _eredis_wqueue_push w.e s l with send_async_pending := 1 } = true :=
        hc.1
      exact ⟨fun _ => hr, fun _ => hr, fun _ => hr⟩
  | shutdown =>
    simp only [World.step, Option.some.injEq] at hstep
    subst hstep
    simp only [is_ready_shutdown]
    exact ⟨hp, hsg, fun h => h⟩

theorem run_ready (evs : List Event) :
    ∀ (w w1 : World),
      (w.e.send_async_pending ≠ 0 → IS_READY w.e = true) →
      (w.signalled = true → IS_READY w.e = true) →
      w.run evs = some w1 →
      (w1.e.send_async_pending ≠ 0 → IS_READY w1.e = true) ∧
      (w1.signalled = true → IS_READY w1.e = true) ∧
      (IS_READY w.e = true → IS_READY w1.e = true) := by
  induction evs with
  | nil =>
    intro w w1 hp hsg hrun
    simp only [World.run, Option.some.injEq] at hrun
    subst hrun
    exact ⟨hp, hsg, fun h => h⟩
  | cons ev rest ih =>
    intro w w1 hp hsg hrun
    cases hs : w.step ev with
    | none => simp [World.run, hs] at hrun
    | some w2 =>
      simp only [World.run, hs] at hrun
      obtain ⟨a, b, c⟩ := step_ready w w2 ev hp hsg hs
      obtain ⟨a1, b1, c1⟩ := ih w2 w1 a b hrun
      exact ⟨a1, b1, fun h => c1 (c h)⟩

theorem host_add_foldl_pending (adds : List (List Char × Int)) :
    ∀ e : eredis_t,
      (adds.foldl (fun e a => eredis_host_add e a.1 a.2) e).send_async_pending =
        e.send_async_pending := by
  induction adds with
  | nil => intro e; rfl
  | cons a rest ih => intro e; simp only [List.foldl_cons, ih]; rfl

/-- C17: in every state the engine reaches from a fresh instance by host_add
calls followed by any sequence of events (triggers, timer ticks, connect and
disconnect callbacks, drains, and also appends and shutdown): the pending flag
is set only if Ready is set; the wakeup is signalled, and so the drain callback
can run, only if Ready is set; commands are submitted by the drain only (the
timer callback and the trigger make no `redisAsyncCommand` call); and whatever
events follow, Ready stays set once it is set. -/
theorem C17_no_drain_before_ready (adds : List (List Char × Int)) (evs : List Event)
    (w : World) (hrun : (World.init adds).run evs = some w) :
    (w.e.send_async_pending ≠ 0 → IS_READY w.e = true) ∧
    (w.signalled = true → IS_READY w.e = true) ∧
    (∀ w1 : World, w.step .send = some w1 → IS_READY w.e = true) ∧
    (∀ (conn : Nat → ConnResult), ∀ c ∈ (_eredis_ev_connect_cb w.e conn).2,
      is_command c = false) ∧
    (∀ c ∈ (_eredis_ev_send_trigger w.e).2, is_command c = false) ∧
    (∀ (evs2 : List Event) (w2 : World), w.run evs2 = some w2 →
      IS_READY w.e = true → IS_READY w2.e = true) := by
  have hp0 : (World.init adds).e.send_async_pending = 0 :=
    host_add_foldl_pending adds eredis_new
  obtain ⟨a, b, _⟩ := run_ready evs (World.init adds) w
    (fun h => absurd hp0 h) (fun h => by cases h) hrun
  refine ⟨a, b, fun w1 hs => ?_, fun conn => (connect_cb_ready w.e conn).2.2.2,
    fun c hc => ?_, fun evs2 w2 hr2 => (run_ready evs2 w w2 a b hr2).2.2⟩
  · by_cases hsig : w.signalled = true
    · exact b hsig
    · simp [World.step, hsig] at hs
  · rcases trigger_cases w.e with ⟨h, _⟩ | ⟨h, _⟩
    · rw [h] at hc; cases hc
    · rw [h] at hc
      simp only [List.mem_singleton] at hc
      subst hc
      rfl

theorem C17_no_drain_before_ready_witness :
    (World.init [(['h'], 6379)]).run [.tick (fun _ => .ok 1), .connect_cb 0 REDIS_OK] =
      some demo_connected_world ∧
    (demo_connected_world.signalled = true → IS_READY demo_connected_world.e = true) :=
  ⟨rfl, (C17_no_drain_before_ready [(['h'], 6379)]
    [.tick (fun _ => .ok 1), .connect_cb 0 REDIS_OK] demo_connected_world rfl).2.1⟩

/-! ### The host file loader on text files -/

theorem nul_ne_chars : NUL ≠ '\n' ∧ NUL ≠ ' ' ∧ NUL ≠ '\t' ∧ NUL ≠ ':' ∧ NUL ≠ '#' ∧
    NUL ≠ '-' ∧ NUL ≠ '+' := by decide

/-- `strchr` for the newline on a line of text followed by a newline. -/
theorem strchr_aux_newline (line post : List Char) (hcl : clean_line line) :
    ∀ i : Nat, strchr_aux '\n' (line ++ '\n' :: post) i = some (some (i + line.length)) := by
  induction line with
  | nil => intro i; simp [strchr_aux]
  | cons x xs ih =>
    intro i
    have hx := hcl x (List.mem_cons_self _ _)
    have hxs : clean_line xs := fun c hc => hcl c (List.mem_cons_of_mem _ hc)
    rw [List.cons_append, strchr_aux]
    simp only [hx.1, hx.2, if_false, ih hxs (i + 1), List.length_cons]
    congr 2
    omega

/-- `strspn` counts the leading blanks of a line followed by a newline. -/
theorem strspn_aux_line (line post : List Char) :
    strspn_aux (line ++ '\n' :: post) = some (line.takeWhile is_blank).length := by
  induction line with
  | nil => simp [strspn_aux]
  | cons x xs ih =>
    by_cases hb : x = ' ' ∨ x = '\t'
    · have : is_blank x = true := by
        simp only [is_blank, Bool.or_eq_true, decide_eq_true_eq]; exact hb
      simp [strspn_aux, hb, ih, List.takeWhile_cons, this]
    · have : is_blank x = false := by
        simp only [is_blank, Bool.or_eq_false_iff, decide_eq_false_iff_not]
        exact ⟨fun h => hb (Or.inl h), fun h => hb (Or.inr h)⟩
      simp [strspn_aux, hb, List.takeWhile_cons, this]

/-- The loop that trims from the back stops at once on a byte that is no blank. -/
theorem trim_back_stops (b : List Char) (buf tk : Nat) (c : Char)
    (hg : b.get? tk = some c) (hc : ¬ (c = ' ' ∨ c = '\t')) : trim_back b buf tk = some tk := by
  cases tk with
  | zero => rfl
  | succ k =>
    unfold trim_back
    split
    · simp only [hg, hc, if_false]
    · rfl

/-- `strchr` for a character that the text before it does not hold. -/
theorem strchr_aux_found (c : Char) (h r : List Char) (hc : c ∉ h) (hn : NUL ∉ h) :
    ∀ i : Nat, strchr_aux c (h ++ c :: r) i = some (some (i + h.length)) := by
  induction h with
  | nil => intro i; simp [strchr_aux]
  | cons x xs ih =>
    intro i
    have hx : x ≠ c := fun e => hc (by rw [e]; exact List.mem_cons_self _ _)
    have hx0 : x ≠ NUL := fun e => hn (by rw [← e]; exact List.mem_cons_self _ _)
    have h1 : c ∉ xs := fun m => hc (List.mem_cons_of_mem _ m)
    have h2 : NUL ∉ xs := fun m => hn (List.mem_cons_of_mem _ m)
    rw [List.cons_append, strchr_aux]
    simp only [hx, hx0, if_false, ih h1 h2 (i + 1), List.length_cons]
    congr 2
    omega

/-- `strchr` for a character that the string does not hold. -/
theorem strchr_aux_missing (c : Char) (h r : List Char) (hc : c ∉ h) (hn : NUL ∉ h)
    (hc0 : c ≠ NUL) : ∀ i : Nat, strchr_aux c (h ++ NUL :: r) i = some none := by
  induction h with
  | nil => intro i; simp [strchr_aux, hc0.symm]
  | cons x xs ih =>
    intro i
    have hx : x ≠ c := fun e => hc (by rw [e]; exact List.mem_cons_self _ _)
    have hx0 : x ≠ NUL := fun e => hn (by rw [← e]; exact List.mem_cons_self _ _)
    have h1 : c ∉ xs := fun m => hc (List.mem_cons_of_mem _ m)
    have h2 : NUL ∉ xs := fun m => hn (List.mem_cons_of_mem _ m)
    rw [List.cons_append, strchr_aux]
    simp only [hx, hx0, if_false, ih h1 h2 (i + 1)]

/-- The C string in front of a NUL. -/
theorem cstr_aux_prefix (h r : List Char) (hn : NUL ∉ h) :
    cstr_aux (h ++ NUL :: r) = some h := by
  induction h with
  | nil => simp [cstr_aux]
  | cons x xs ih =>
    have hx0 : x ≠ NUL := fun e => hn (by rw [← e]; exact List.mem_cons_self _ _)
    have h2 : NUL ∉ xs := fun m => hn (List.mem_cons_of_mem _ m)
    simp [cstr_aux, hx0, ih h2]

/-- The digit loop of `atoi` does not look past a NUL. -/
theorem atoi_digits_local (r post : List Char) :
    ∀ acc : Int, atoi_digits (r ++ NUL :: post) acc = atoi_digits (r ++ [NUL]) acc ∧
      (atoi_digits (r ++ [NUL]) acc).isSome = true := by
  induction r with
  | nil =>
    intro acc
    have : ¬ ('0' ≤ NUL ∧ NUL ≤ '9') := by decide
    simp [atoi_digits, this]
  | cons x xs ih =>
    intro acc
    rw [List.cons_append, List.cons_append, atoi_digits, atoi_digits]
    by_cases hd : '0' ≤ x ∧ x ≤ '9'
    · simp only [hd, and_self, if_true]
      exact ih _
    · simp [hd]

/-- `atoi` does not look past a NUL. -/
theorem atoi_aux_local (r post : List Char) :
    atoi_aux (r ++ NUL :: post) = atoi_aux (r ++ [NUL]) ∧
      (atoi_aux (r ++ [NUL])).isSome = true := by
  induction r with
  | nil =>
    have h1 : isspace NUL = false := by decide
    have h2 : ¬ ('0' ≤ NUL ∧ NUL ≤ '9') := by decide
    simp [atoi_aux, h1, nul_ne_chars.2.2.2.2.2.1, nul_ne_chars.2.2.2.2.2.2, atoi_digits, h2]
  | cons x xs ih =>
    rw [List.cons_append, List.cons_append, atoi_aux, atoi_aux]
    split
    · exact ih
    · split
      · have := atoi_digits_local xs post 0
        rw [this.1]
        refine ⟨rfl, ?_⟩
        simp [this.2]
      · split
        · exact atoi_digits_local xs post 0
        · exact atoi_digits_local (x :: xs) post 0


theorem buf_drop (A B : List Char) (i : Nat) (hi : i = A.length) : (A ++ B).drop i = B := by
  subst hi; exact List.drop_left A B

theorem buf_get (A B : List Char) (x : Char) (i : Nat) (hi : i = A.length) :
    (A ++ x :: B).get? i = some x := by
  subst hi
  rw [List.get?_eq_getElem?, List.getElem?_append_right (Nat.le_refl _)]
  simp

theorem buf_set (A B : List Char) (x y : Char) (i : Nat) (hi : i = A.length) :
    (A ++ x :: B).set i y = A ++ y :: B := by
  subst hi
  rw [List.set_append_right _ _ (Nat.le_refl _)]
  simp

theorem dropWhile_head_false {α : Type} (p : α → Bool) (l : List α) (c : α) (r : List α)
    (h : l.dropWhile p = c :: r) : p c = false := by
  induction l with
  | nil => simp at h
  | cons x xs ih =>
    rw [List.dropWhile_cons] at h
    split at h
    · exact ih h
    · rename_i hx
      simp only [List.cons.injEq] at h
      rw [← h.1]
      simpa using hx


/-- One pass of the loop of the loader over a line of text that ends with a
newline: the pass ends just after the newline, leaves the bytes after the line as
they are, and adds the host the line asks for. -/
theorem host_file_line_text (pre line post : List Char) (hcl : clean_line line)
    (e : eredis_t) (ret : Int) :
    ∃ pre1 : List Char, pre1.length = pre.length + line.length + 1 ∧
      host_file_line (pre ++ (line ++ '\n' :: post)) pre.length e ret =
        some (pre1 ++ post, pre1.length, add_line e line, ret + line_count line) := by
  have hsplit : line.takeWhile is_blank ++ line.dropWhile is_blank = line :=
    List.takeWhile_append_dropWhile _ _
  -- the newline and the leading blanks
  have h1 : strchr (pre ++ (line ++ '\n' :: post)) pre.length '\n' =
      some (some (pre.length + line.length)) := by
    unfold strchr
    rw [buf_drop pre _ _ rfl]
    exact strchr_aux_newline line post hcl _
  have h2 : strspn (pre ++ (line ++ '\n' :: post)) pre.length =
      some (line.takeWhile is_blank).length := by
    unfold strspn
    rw [buf_drop pre _ _ rfl]
    exact strspn_aux_line line post
  have hend : (pre ++ (line ++ '\n' :: post)).get? (pre.length + line.length) = some '\n' := by
    rw [← List.append_assoc]
    exact buf_get (pre ++ line) post '\n' _ (by simp)
  have hlen : ¬ (pre ++ (line ++ '\n' :: post)).length ≤ pre.length + line.length := by
    simp
  have htrim : ∀ buf1, trim_back (pre ++ (line ++ '\n' :: post)) buf1 (pre.length + line.length) =
      some (pre.length + line.length) :=
    fun buf1 => trim_back_stops _ _ _ '\n' hend (by decide)
  have hset : (pre ++ (line ++ '\n' :: post)).set (pre.length + line.length) NUL =
      pre ++ (line ++ NUL :: post) := by
    rw [← List.append_assoc, ← List.append_assoc]
    exact buf_set (pre ++ line) post '\n' NUL _ (by simp)
  generalize hws : line.takeWhile is_blank = ws at hsplit h2
  have hlh : line_host line =
      if (line.dropWhile is_blank).head? = some '#' then none
      else some ((line.dropWhile is_blank).takeWhile (fun c => c != ':'),
        match (line.dropWhile is_blank).dropWhile (fun c => c != ':') with
        | [] => 0
        | _ :: ptxt => (atoi (ptxt ++ [NUL]) 0).getD 0) := rfl
  generalize ht : line.dropWhile is_blank = t at hsplit hlh
  have hget : (pre ++ (line ++ '\n' :: post)).get? (pre.length + ws.length) =
      (t ++ '\n' :: post).head? := by
    have : pre ++ (line ++ '\n' :: post) = (pre ++ ws) ++ (t ++ '\n' :: post) := by
      rw [← hsplit]; simp
    rw [this, List.get?_eq_getElem?, List.getElem?_append_right (by simp)]
    simp [List.head?_eq_getElem?]
  have hdrop1 : (pre ++ (line ++ NUL :: post)).drop (pre.length + ws.length) =
      t ++ NUL :: post := by
    have : pre ++ (line ++ NUL :: post) = (pre ++ ws) ++ (t ++ NUL :: post) := by
      rw [← hsplit]; simp
    rw [this]
    exact buf_drop _ _ _ (by simp)
  have htl : ∀ c ∈ t, c ≠ '\n' ∧ c ≠ NUL := by
    intro c hc
    exact hcl c (by rw [← hsplit]; exact List.mem_append_right _ hc)
  by_cases hcom : t.head? = some '#'
  · -- a comment line
    have hc : (t ++ '\n' :: post).head? = some '#' := by
      cases t with
      | nil => simp at hcom
      | cons c t' => simpa using hcom
    refine ⟨pre ++ (line ++ ['\n']), by simp; omega, ?_⟩
    have hadd : add_line e line = e := by simp [add_line, hlh, hcom]
    have hcnt : line_count line = 0 := by simp [line_count, hlh, hcom]
    simp only [host_file_line, h1, h2, hget, hc, if_true, hadd, hcnt]
    simp
    omega
  · -- a line that names a host
    obtain ⟨c0, hc0, hne⟩ : ∃ c0, (t ++ '\n' :: post).head? = some c0 ∧ c0 ≠ '#' := by
      cases t with
      | nil => exact ⟨'\n', by simp, by decide⟩
      | cons c t' =>
        refine ⟨c, by simp, fun h => hcom ?_⟩
        simp [h]
    have hsp2 : t.takeWhile (fun c => c != ':') ++ t.dropWhile (fun c => c != ':') = t :=
      List.takeWhile_append_dropWhile _ _
    have hh1 : ':' ∉ t.takeWhile (fun c => c != ':') := by
      intro hm
      have := List.mem_takeWhile_imp hm
      simp at this
    have hh2 : NUL ∉ t.takeWhile (fun c => c != ':') := by
      intro hm
      exact (htl NUL (List.takeWhile_subset _ hm)).2 rfl
    generalize hhd : t.takeWhile (fun c => c != ':') = h at hsp2 hh1 hh2 hlh
    cases hrest : t.dropWhile (fun c => c != ':') with
    | nil =>
      rw [hrest, List.append_nil] at hsp2
      have hadd : add_line e line = eredis_host_add e h 0 := by
        simp [add_line, hlh, hcom, hrest]
      have hcnt : line_count line = 1 := by simp [line_count, hlh, hcom]
      have hs2 : strchr (pre ++ (line ++ NUL :: post)) (pre.length + ws.length) ':' =
          some none := by
        unfold strchr
        rw [hdrop1, ← hsp2]
        exact strchr_aux_missing ':' h post hh1 hh2 (by decide) _
      have hcs : cstr (pre ++ (line ++ NUL :: post)) (pre.length + ws.length) = some h := by
        unfold cstr
        rw [hdrop1, ← hsp2]
        exact cstr_aux_prefix h post hh2
      refine ⟨pre ++ (line ++ [NUL]), by simp; omega, ?_⟩
      simp only [host_file_line, h1, h2, hget, hc0, hne, if_false, htrim, hlen, hset, hs2, hcs,
        hadd, hcnt]
      simp
      omega
    | cons c ptxt =>
      have hc : c = ':' := by
        have := dropWhile_head_false _ _ _ _ hrest
        simpa using this
      subst hc
      rw [hrest] at hsp2
      have hline : line = ws ++ (h ++ ':' :: ptxt) := by rw [hsp2, hsplit]
      obtain ⟨hloc, hsome⟩ := atoi_aux_local ptxt post
      obtain ⟨v, hv⟩ := Option.isSome_iff_exists.1 hsome
      have hat0 : atoi (ptxt ++ [NUL]) 0 = some (atoi_value v) := by
        simp [atoi, hv]
      have hadd : add_line e line = eredis_host_add e h (atoi_value v) := by
        simp [add_line, hlh, hcom, hrest, hat0]
      have hcnt : line_count line = 1 := by simp [line_count, hlh, hcom]
      have hs2 : strchr (pre ++ (line ++ NUL :: post)) (pre.length + ws.length) ':' =
          some (some (pre.length + ws.length + h.length)) := by
        unfold strchr
        rw [hdrop1, ← hsp2, List.append_assoc, List.cons_append]
        exact strchr_aux_found ':' h _ hh1 hh2 _
      have hset2 : (pre ++ (line ++ NUL :: post)).set (pre.length + ws.length + h.length) NUL =
          (pre ++ (ws ++ h)) ++ NUL :: (ptxt ++ NUL :: post) := by
        have : pre ++ (line ++ NUL :: post) =
            (pre ++ (ws ++ h)) ++ ':' :: (ptxt ++ NUL :: post) := by
          rw [hline]; simp
        rw [this]
        exact buf_set _ _ _ _ _ (by simp; omega)
      have hat : atoi ((pre ++ (ws ++ h)) ++ NUL :: (ptxt ++ NUL :: post))
          (pre.length + ws.length + h.length + 1) = some (atoi_value v) := by
        unfold atoi
        have : (pre ++ (ws ++ h)) ++ NUL :: (ptxt ++ NUL :: post) =
            (pre ++ (ws ++ h) ++ [NUL]) ++ (ptxt ++ NUL :: post) := by simp
        rw [this, buf_drop _ _ _ (by simp; omega), hloc, hv]
        rfl
      have hcs : cstr ((pre ++ (ws ++ h)) ++ NUL :: (ptxt ++ NUL :: post))
          (pre.length + ws.length) = some h := by
        unfold cstr
        have : (pre ++ (ws ++ h)) ++ NUL :: (ptxt ++ NUL :: post) =
            (pre ++ ws) ++ (h ++ NUL :: (ptxt ++ NUL :: post)) := by simp
        rw [this, buf_drop _ _ _ (by simp)]
        exact cstr_aux_prefix h _ hh2
      refine ⟨(pre ++ (ws ++ h)) ++ NUL :: (ptxt ++ [NUL]), by rw [hline]; simp; omega, ?_⟩
      simp only [host_file_line, h1, h2, hget, hc0, hne, if_false, htrim, hlen, hset, hs2, hset2,
        hat, hcs, hadd, hcnt]
      simp
      rw [hline]
      simp
      omega


theorem file_hosts_cons (l : List Char) (ls : List (List Char)) :
    file_hosts (l :: ls) =
      (match line_host l with
        | none => []
        | some a => [a]) ++ file_hosts ls := by
  unfold file_hosts
  rw [List.filterMap_cons]
  cases line_host l <;> rfl

theorem file_hosts_append (l1 l2 : List (List Char)) :
    file_hosts (l1 ++ l2) = file_hosts l1 ++ file_hosts l2 := by
  unfold file_hosts
  exact List.filterMap_append _ _ _

theorem lines_length_le (lines : List (List Char)) :
    lines.length ≤ (file_of_lines lines).length := by
  induction lines with
  | nil => simp [file_of_lines]
  | cons l ls ih => simp [file_of_lines]; omega

/-- The loop of the loader over lines of text, each ended by a newline, with the
terminating NUL after the last: every line is dealt with in turn and the loop
ends at the NUL. -/
theorem host_file_loop_lines (lines : List (List Char)) (hcl : ∀ l ∈ lines, clean_line l) :
    ∀ (pre : List Char) (fuel : Nat) (e : eredis_t) (ret : Int), lines.length < fuel →
      host_file_loop fuel (pre ++ (file_of_lines lines ++ [NUL])) pre.length e ret =
        .ok (ret + (file_hosts lines).length, add_hosts e (file_hosts lines)) := by
  induction lines with
  | nil =>
    intro pre fuel e ret hf
    obtain ⟨n, rfl⟩ : ∃ n, fuel = n + 1 := ⟨fuel - 1, by simp at hf; omega⟩
    have hg : (pre ++ (file_of_lines [] ++ [NUL])).get? pre.length = some NUL := by
      simp only [file_of_lines, List.nil_append]
      exact buf_get pre [] NUL _ rfl
    rw [host_file_loop]
    simp only [hg]
    simp [file_hosts, add_hosts]
  | cons l ls ih =>
    intro pre fuel e ret hf
    obtain ⟨n, rfl⟩ : ∃ n, fuel = n + 1 := ⟨fuel - 1, by simp at hf; omega⟩
    have hl := hcl l (List.mem_cons_self _ _)
    have hls : ∀ x ∈ ls, clean_line x := fun x hx => hcl x (List.mem_cons_of_mem _ hx)
    have hb : pre ++ (file_of_lines (l :: ls) ++ [NUL]) =
        pre ++ (l ++ '\n' :: (file_of_lines ls ++ [NUL])) := by
      simp [file_of_lines]
    obtain ⟨c, hg, hc⟩ : ∃ c, (pre ++ (l ++ '\n' :: (file_of_lines ls ++ [NUL]))).get? pre.length =
        some c ∧ c ≠ NUL := by
      cases l with
      | nil => exact ⟨'\n', buf_get pre _ _ _ rfl, by decide⟩
      | cons x xs =>
        exact ⟨x, buf_get pre _ _ _ rfl, (hl x (List.mem_cons_self _ _)).2⟩
    obtain ⟨pre1, hlen, hline⟩ :=
      host_file_line_text pre l (file_of_lines ls ++ [NUL]) hl e ret
    have hrec := ih hls pre1 n (add_line e l) (ret + line_count l) (by simp at hf; omega)
    rw [hb]
    simp only [host_file_loop, hg, hc, if_false, hline, hrec, file_hosts_cons]
    cases hlh : line_host l with
    | none => simp [add_line, line_count, hlh]
    | some a =>
      simp only [add_line, line_count, hlh, List.singleton_append, List.length_cons, add_hosts,
        List.foldl_cons]
      congr 2
      push_cast
      ring

/-- The loader goes to its parsing loop for a file of at most 16384 bytes that
is read in full. -/
theorem host_file_accepts (e : eredis_t) (content : List Char) (h : content.length ≤ 16384) :
    eredis_host_file e (.file content content.length) =
      host_file_loop (content.length + 2) (content ++ [NUL]) 0 e 0 := by
  have hw : wrap32 (content.length : Int) = content.length := by
    unfold wrap32; omega
  have : ¬ ((content.length : Int) > 16384) := by
    have : (content.length : Int) ≤ 16384 := by exact_mod_cast h
    omega
  simp [eredis_host_file, hw, this]

/-- The loader on a text file: it returns the number of hosts the lines ask for
and has added them in line order. -/
theorem host_file_text (lines : List (List Char)) (hcl : ∀ l ∈ lines, clean_line l)
    (hsize : (file_of_lines lines).length ≤ 16384) (e : eredis_t) :
    eredis_host_file e (.file (file_of_lines lines) (file_of_lines lines).length) =
      .ok (((file_hosts lines).length : Int), add_hosts e (file_hosts lines)) := by
  rw [host_file_accepts e _ hsize]
  have h := host_file_loop_lines lines hcl [] ((file_of_lines lines).length + 2) e 0
    (by have := lines_length_le lines; omega)
  simpa using h


theorem takeWhile_dropWhile_stop {α : Type} (p : α → Bool) (h : List α) (x : α) (r : List α)
    (hh : ∀ c ∈ h, p c = true) (hx : p x = false) :
    (h ++ x :: r).takeWhile p = h ∧ (h ++ x :: r).dropWhile p = x :: r := by
  induction h with
  | nil => simp [List.takeWhile_cons, List.dropWhile_cons, hx]
  | cons y ys ih =>
    have hy := hh y (List.mem_cons_self _ _)
    obtain ⟨a, b⟩ := ih (fun c hc => hh c (List.mem_cons_of_mem _ hc))
    simp [List.takeWhile_cons, List.dropWhile_cons, hy, a, b]

theorem takeWhile_dropWhile_all {α : Type} (p : α → Bool) (h : List α)
    (hh : ∀ c ∈ h, p c = true) : h.takeWhile p = h ∧ h.dropWhile p = [] := by
  induction h with
  | nil => simp
  | cons y ys ih =>
    have hy := hh y (List.mem_cons_self _ _)
    obtain ⟨a, b⟩ := ih (fun c hc => hh c (List.mem_cons_of_mem _ hc))
    simp [List.takeWhile_cons, List.dropWhile_cons, hy, a, b]

/-- The digit loop of `atoi` on a string of digits. -/
theorem atoi_digits_decimal (ds : List Char) (hd : ∀ d ∈ ds, '0' ≤ d ∧ d ≤ '9') :
    ∀ acc : Int, atoi_digits (ds ++ [NUL]) acc =
      some (ds.foldl (fun acc d => acc * 10 + ((d.toNat : Int) - 48)) acc) := by
  induction ds with
  | nil =>
    intro acc
    have : ¬ ('0' ≤ NUL ∧ NUL ≤ '9') := by decide
    simp [atoi_digits, this]
  | cons x xs ih =>
    intro acc
    have hx := hd x (List.mem_cons_self _ _)
    rw [List.cons_append, atoi_digits]
    simp only [hx, and_self, if_true, List.foldl_cons]
    exact ih (fun d hm => hd d (List.mem_cons_of_mem _ hm)) _

theorem digit_toNat (d : Char) (hd : '0' ≤ d ∧ d ≤ '9') : 48 ≤ d.toNat ∧ d.toNat ≤ 57 := by
  obtain ⟨h1, h2⟩ := hd
  have a : ('0' : Char).toNat = 48 := rfl
  have b : ('9' : Char).toNat = 57 := rfl
  have h1' : ('0' : Char).val ≤ d.val := h1
  have h2' : d.val ≤ ('9' : Char).val := h2
  have e1 : ('0' : Char).val.toNat ≤ d.val.toNat := h1'
  have e2 : d.val.toNat ≤ ('9' : Char).val.toNat := h2'
  exact ⟨by simpa [Char.toNat] using e1, by simpa [Char.toNat] using e2⟩

theorem decimal_foldl_nonneg (ds : List Char) (hd : ∀ d ∈ ds, '0' ≤ d ∧ d ≤ '9') :
    ∀ acc : Int, 0 ≤ acc →
      0 ≤ ds.foldl (fun acc d => acc * 10 + ((d.toNat : Int) - 48)) acc := by
  induction ds with
  | nil => intro acc h; simpa using h
  | cons x xs ih =>
    intro acc h
    have hx := digit_toNat x (hd x (List.mem_cons_self _ _))
    simp only [List.foldl_cons]
    apply ih (fun d hm => hd d (List.mem_cons_of_mem _ hm))
    omega

/-- The `int` that `atoi` returns for a number that fits an `int` is that number. -/
theorem atoi_value_int (v : Int) (h0 : -2147483648 ≤ v) (hv : v < 2147483648) :
    atoi_value v = v := by
  unfold atoi_value strtol_value wrap32 LONG_MIN LONG_MAX
  split_ifs <;> omega

/-- `atoi` on a string of digits. -/
theorem atoi_digits_string (ds : List Char) (hne : ds ≠ [])
    (hd : ∀ d ∈ ds, '0' ≤ d ∧ d ≤ '9') :
    atoi (ds ++ [NUL]) 0 = some (atoi_value (decimal_value ds)) := by
  cases ds with
  | nil => exact absurd rfl hne
  | cons x xs =>
    have hx := hd x (List.mem_cons_self _ _)
    have hsp : isspace x = false := by
      cases hs : isspace x with
      | false => rfl
      | true =>
        simp only [isspace, Bool.or_eq_true, decide_eq_true_eq] at hs
        rcases hs with h | h | h | h | h | h <;>
          (subst h; exact absurd hx (by decide))
    have hm : x ≠ '-' := fun h => by rw [h] at hx; exact absurd hx (by decide)
    have hp : x ≠ '+' := fun h => by rw [h] at hx; exact absurd hx (by decide)
    unfold atoi
    rw [List.drop_zero, List.cons_append, atoi_aux]
    simp only [hsp, Bool.false_eq_true, if_false, hm, hp]
    have := atoi_digits_decimal (x :: xs) hd 0
    rw [List.cons_append] at this
    rw [this]
    rfl

/-- `atoi` on a string of digits whose value fits an `int`. -/
theorem atoi_decimal (ds : List Char) (hne : ds ≠ []) (hd : ∀ d ∈ ds, '0' ≤ d ∧ d ≤ '9')
    (hv : decimal_value ds < 2147483648) :
    atoi (ds ++ [NUL]) 0 = some (decimal_value ds) := by
  have h0 := decimal_foldl_nonneg ds hd 0 (le_refl _)
  have h1 : -2147483648 ≤ decimal_value ds := by
    unfold decimal_value
    omega
  rw [atoi_digits_string ds hne hd, atoi_value_int _ h1 hv]

/-- A line whose first character after the leading blanks is `#` asks for no host. -/
theorem line_host_comment (line : List Char)
    (h : (line.dropWhile is_blank).head? = some '#') : line_host line = none := by
  simp [line_host, h]

/-- A line `h:p` asks for the host `h` with the port that `atoi` makes of `p`. -/
theorem line_host_port (h ds : List Char) (hne : h ≠ []) (hcol : ':' ∉ h)
    (hbl : ∀ c ∈ h, is_blank c = false) (hhash : h.head? ≠ some '#')
    (dne : ds ≠ []) (hd : ∀ d ∈ ds, '0' ≤ d ∧ d ≤ '9') :
    line_host (h ++ ':' :: ds) = some (h, atoi_value (decimal_value ds)) := by
  cases h with
  | nil => exact absurd rfl hne
  | cons x xs =>
    have hx : is_blank x = false := hbl x (List.mem_cons_self _ _)
    have hdw : ((x :: xs) ++ ':' :: ds).dropWhile is_blank = (x :: xs) ++ ':' :: ds := by
      rw [List.cons_append, List.dropWhile_cons]
      simp [hx]
    have hx2 : x ≠ '#' := fun e => hhash (by simp [e])
    have hp : ∀ c ∈ x :: xs, (c != ':') = true := by
      intro c hc
      simp only [bne_iff_ne, ne_eq]
      exact fun e => hcol (by rw [← e]; exact hc)
    obtain ⟨a, b⟩ := takeWhile_dropWhile_stop (fun c => c != ':') (x :: xs) ':' ds hp (by simp)
    unfold line_host
    simp only [hdw, a, b, atoi_digits_string ds dne hd]
    simp [hx2]

/-- A line `h` without `:` asks for the host `h` with port 0. -/
theorem line_host_plain (h : List Char) (hne : h ≠ []) (hcol : ':' ∉ h)
    (hbl : ∀ c ∈ h, is_blank c = false) (hhash : h.head? ≠ some '#') :
    line_host h = some (h, 0) := by
  cases h with
  | nil => exact absurd rfl hne
  | cons x xs =>
    have hx : is_blank x = false := hbl x (List.mem_cons_self _ _)
    have hdw : (x :: xs).dropWhile is_blank = x :: xs := by
      rw [List.dropWhile_cons]
      simp [hx]
    have hx2 : x ≠ '#' := fun e => hhash (by simp [e])
    have hp : ∀ c ∈ x :: xs, (c != ':') = true := by
      intro c hc
      simp only [bne_iff_ne, ne_eq]
      exact fun e => hcol (by rw [← e]; exact hc)
    obtain ⟨a, b⟩ := takeWhile_dropWhile_all (fun c => c != ':') (x :: xs) hp
    unfold line_host
    simp only [hdw, a, b]
    simp [hx2]


/-- C11, as stated, fails for a port that does not fit an `int`, and for a host
name that starts with `#`.  The file of the one line `a:2147483648` is accepted,
and the line calls `eredis_host_add` with the port argument -2147483648.  The
file of the one line `a:9223372036854775808` is accepted, the line calls
`eredis_host_add` with the port argument -1, and the host added has the port -1.
The line `#a:1` adds no host. -/
theorem C11_port_beyond_int_is_not_passed :
    decimal_value demo_port_int_line.tail.tail = 2147483648 ∧
    file_hosts [demo_port_int_line] = [(['a'], -2147483648)] ∧
    eredis_host_file eredis_new (.file (file_of_lines [demo_port_int_line]) 13) =
      .ok (1, eredis_host_add eredis_new ['a'] (-2147483648)) ∧
    decimal_value demo_port_long_line.tail.tail = 9223372036854775808 ∧
    file_hosts [demo_port_long_line] = [(['a'], -1)] ∧
    (eredis_host_file eredis_new (.file (file_of_lines [demo_port_long_line]) 22)).toOption.map
        (fun r => (r.1, r.2.hosts.map (fun h => (h.target, h.port)))) =
      some (1, [(['a'], -1)]) ∧
    file_hosts [['#', 'a', ':', '1']] = [] :=
  ⟨rfl, rfl, rfl, rfl, rfl, rfl, rfl⟩

/-- C11, amended: the file holds the lines `lines` (no newline and no NUL inside a
line), each followed by a newline, and is at most 16384 bytes long.  Then the
loader returns, its value is the number of `eredis_host_add` calls the lines ask
for, and the instance is the one after these calls in line order.  In the list
of these calls a line whose first character after the leading blanks is `#`
contributes nothing, and the calls of the lines before and after it are the ones
these lines give on their own, as if the comment line were absent; a line `h:p`,
`h` not empty, without `:` and blanks and not starting with `#`, `p` a string of
decimal digits, contributes the call with target `h` and, as port argument, the
`int` that `atoi` returns for `p`, which is `p` itself when `p` is below 2^31; a
line `h` of that kind without `:` contributes the call with target `h` and
port 0. -/
theorem C11_host_file_line_by_line (lines : List (List Char))
    (hcl : ∀ l ∈ lines, clean_line l) (hsize : (file_of_lines lines).length ≤ 16384)
    (e : eredis_t) :
    eredis_host_file e (.file (file_of_lines lines) (file_of_lines lines).length) =
      .ok (((file_hosts lines).length : Int), add_hosts e (file_hosts lines)) ∧
    (∀ (l1 : List (List Char)) (line : List Char) (l2 : List (List Char)),
      lines = l1 ++ line :: l2 →
      ((line.dropWhile is_blank).head? = some '#' →
        file_hosts lines = file_hosts l1 ++ file_hosts l2 ∧
        file_hosts lines = file_hosts (l1 ++ l2)) ∧
      (∀ h ds : List Char, line = h ++ ':' :: ds →
        h ≠ [] → ':' ∉ h → (∀ c ∈ h, is_blank c = false) → h.head? ≠ some '#' →
        ds ≠ [] → (∀ d ∈ ds, '0' ≤ d ∧ d ≤ '9') →
        file_hosts lines =
          file_hosts l1 ++ (h, atoi_value (decimal_value ds)) :: file_hosts l2 ∧
        (decimal_value ds < 2147483648 →
          file_hosts lines = file_hosts l1 ++ (h, decimal_value ds) :: file_hosts l2)) ∧
      (line ≠ [] → ':' ∉ line → (∀ c ∈ line, is_blank c = false) →
        line.head? ≠ some '#' →
        file_hosts lines = file_hosts l1 ++ (line, 0) :: file_hosts l2)) := by
  refine ⟨host_file_text lines hcl hsize e, fun l1 line l2 hl => ?_⟩
  have hsplit : file_hosts lines =
      file_hosts l1 ++ ((match line_host line with
        | none => []
        | some a => [a]) ++ file_hosts l2) := by
    rw [hl, file_hosts_append, file_hosts_cons]
  refine ⟨fun hc => ?_, fun h ds hline h1 h2 h3 h4 d1 d2 => ?_, fun h1 h2 h3 h4 => ?_⟩
  · rw [line_host_comment line hc] at hsplit
    exact ⟨by simpa using hsplit, by rw [file_hosts_append]; simpa using hsplit⟩
  · rw [hline, line_host_port h ds h1 h2 h3 h4 d1 d2] at hsplit
    have hgen : file_hosts lines =
        file_hosts l1 ++ (h, atoi_value (decimal_value ds)) :: file_hosts l2 := by
      simpa using hsplit
    refine ⟨hgen, fun d3 => ?_⟩
    have h0 := decimal_foldl_nonneg ds d2 0 (le_refl _)
    have hlow : -2147483648 ≤ decimal_value ds := by
      unfold decimal_value
      omega
    rw [hgen, atoi_value_int _ hlow d3]
  · rw [line_host_plain line h1 h2 h3 h4] at hsplit
    simpa using hsplit

theorem C11_host_file_line_by_line_witness :
    (∀ l ∈ demo_lines, clean_line l) ∧ (file_of_lines demo_lines).length ≤ 16384 ∧
    eredis_host_file eredis_new
        (.file (file_of_lines demo_lines) (file_of_lines demo_lines).length) =
      .ok (2, add_hosts eredis_new [(['a'], 6379), (['/', 's'], 0)]) :=
  ⟨by unfold clean_line; decide, by decide,
    (C11_host_file_line_by_line demo_lines (by unfold clean_line; decide) (by decide)
      eredis_new).1⟩

/-! ### The host file loader: bounds and termination -/

theorem strchr_aux_range (c : Char) (l : List Char) :
    ∀ (i p : Nat), strchr_aux c l i = some (some p) → i ≤ p ∧ p < i + l.length := by
  induction l with
  | nil => intro i p h; simp [strchr_aux] at h
  | cons x xs ih =>
    intro i p h
    rw [strchr_aux] at h
    split at h
    · simp only [Option.some.injEq] at h
      subst h
      simp
    · split at h
      · simp at h
      · have := ih (i + 1) p h
        simp only [List.length_cons]
        omega

theorem strlen_aux_range (l : List Char) :
    ∀ n : Nat, strlen_aux l = some n → n < l.length := by
  induction l with
  | nil => intro n h; simp [strlen_aux] at h
  | cons x xs ih =>
    intro n h
    rw [strlen_aux] at h
    split at h
    · simp only [Option.some.injEq] at h
      subst h
      simp
    · cases hs : strlen_aux xs with
      | none => simp [hs] at h
      | some m =>
        simp only [hs, Option.map_some', Option.some.injEq] at h
        have := ih m hs
        simp only [List.length_cons]
        omega

/-- One pass of the loop of the loader moves `buf` forward, at most to the byte
after the last one, and keeps the length of the buffer. -/
theorem host_file_line_progress (b : List Char) (buf : Nat) (e : eredis_t) (ret : Int)
    (r : List Char × Nat × eredis_t × Int) (hr : host_file_line b buf e ret = some r) :
    buf < r.2.1 ∧ r.2.1 ≤ b.length ∧ r.1.length = b.length := by
  unfold host_file_line at hr
  split at hr
  · cases hr
  rename_i r1 hs1
  split at hr
  · cases hr
  rename_i end_ hend
  have hrange : buf ≤ end_ ∧ end_ < b.length := by
    cases r1 with
    | some p =>
      simp only [Option.some.injEq] at hend
      subst hend
      have := strchr_aux_range _ _ _ _ hs1
      simp only [List.length_drop] at this
      omega
    | none =>
      simp only at hend
      cases hl : strlen b buf with
      | none => simp [hl] at hend
      | some n =>
        simp only [hl, Option.map_some', Option.some.injEq] at hend
        have := strlen_aux_range _ _ hl
        simp only [List.length_drop] at this
        omega
  split at hr
  · cases hr
  dsimp only at hr
  split at hr
  · cases hr
  split at hr
  · simp only [Option.some.injEq] at hr; subst hr
    exact ⟨by simp; omega, by simp; omega, rfl⟩
  split at hr
  · cases hr
  split at hr
  · cases hr
  split at hr
  · cases hr
  · split at hr
    · cases hr
    · simp only [Option.some.injEq] at hr; subst hr
      exact ⟨by simp; omega, by simp; omega, by simp⟩
  · split at hr
    · cases hr
    · split at hr
      · cases hr
      · simp only [Option.some.injEq] at hr; subst hr
        exact ⟨by simp; omega, by simp; omega, by simp⟩

/-- The loop of the loader ends before its fuel is used up. -/
theorem host_file_loop_ends (fuel : Nat) :
    ∀ (b : List Char) (buf : Nat) (e : eredis_t) (ret : Int),
      buf ≤ b.length → b.length + 1 ≤ fuel + buf →
      host_file_loop fuel b buf e ret ≠ .error .out_of_fuel := by
  induction fuel with
  | zero => intro b buf e ret h1 h2; omega
  | succ n ih =>
    intro b buf e ret h1 h2
    rw [host_file_loop]
    split
    · simp
    · split
      · simp
      · split
        · simp
        · rename_i b1 buf1 e1 ret1 hline
          obtain ⟨p1, p2, p3⟩ := host_file_line_progress b buf e ret _ hline
          simp only at p1 p2 p3
          exact ih b1 buf1 e1 ret1 (by omega) (by omega)

/-- The loader ends on every file. -/
theorem host_file_ends (e : eredis_t) (f : FileEnv) :
    eredis_host_file e f ≠ .error .out_of_fuel := by
  unfold eredis_host_file
  split
  · simp
  · simp
  · dsimp only
    split
    · simp
    · split
      · simp
      · exact host_file_loop_ends _ _ _ _ _ (Nat.zero_le _) (by simp)


/-- C19: the loop of the loader ends on every file (the fuel of the model is never
used up), and on a file whose lines are all newline-terminated text it ends with
a count, no byte outside the buffer being touched.  But take the file of the three
bytes `a`, newline, `b`: two lines, the last one without a newline.  It is
accepted and the buffer has 4 bytes, the NUL at index 3.  The first pass leaves
`buf` at index 2; the second pass, for `b`, ends with `buf = end + 1 = 4`, one
past the NUL; the test `*buf` then reads index 4, which is outside the buffer. -/
theorem C19_host_file_reads_past_the_terminator :
    eredis_host_file eredis_new (.file ['a', '\n', 'b'] 3) = .error .out_of_bounds ∧
    (host_file_line ['a', '\n', 'b', NUL] 0 eredis_new 0).map (fun r => (r.1, r.2.1)) =
      some (['a', NUL, 'b', NUL], 2) ∧
    (host_file_line ['a', NUL, 'b', NUL] 2 (eredis_host_add eredis_new ['a'] 0) 1).map
      (fun r => (r.1, r.2.1)) = some (['a', NUL, 'b', NUL], 4) ∧
    (['a', NUL, 'b', NUL] : List Char).get? 4 = none ∧
    (∀ (e : eredis_t) (f : FileEnv), eredis_host_file e f ≠ .error .out_of_fuel) ∧
    (∀ (lines : List (List Char)) (e : eredis_t), (∀ l ∈ lines, clean_line l) →
      (file_of_lines lines).length ≤ 16384 →
      ∃ r, eredis_host_file e (.file (file_of_lines lines) (file_of_lines lines).length) =
        .ok r) :=
  ⟨rfl, rfl, rfl, rfl, host_file_ends,
    fun lines e hcl hsize => ⟨_, host_file_text lines hcl hsize e⟩⟩

/-- C21: in every state reached from a fresh instance by host_add calls followed by any
sequence of timer ticks, connect callbacks and disconnect callbacks (and any other
event of the engine), every host has 0 <= failures <= 20, and failures <= 10 when it
is Disconnected. So the counter lies in the range of its signed 8-bit field, and every
value the code can store in it next (failures + 1, failures mod 20, and that plus 1)
is stored unchanged by the 8-bit field. -/
theorem C21_failures_counter_stays_in_range (adds : List (List Char × Int))
    (evs : List Event) (w : World) (hrun : (World.init adds).run evs = some w) :
    ∀ h ∈ w.e.hosts,
      0 ≤ h.failures ∧ h.failures ≤ 20 ∧
      (h.status = HOST_DISCONNECTED → h.failures ≤ 10) ∧
      wrap8 h.failures = h.failures ∧
      wrap8 (h.failures + 1) = h.failures + 1 ∧
      wrap8 (h.failures.tmod 20) = h.failures.tmod 20 ∧
      wrap8 (h.failures.tmod 20 + 1) = h.failures.tmod 20 + 1 := by
  intro h hm
  have hok := run_hosts_ok evs _ w (init_hosts_ok adds) hrun h hm
  have hb := host_ok_bounds h hok
  have ht := tmod_twenty_bounds h.failures
  refine ⟨hb.1, hb.2, ?_, wrap8_of_range (by omega) (by omega),
    wrap8_of_range (by omega) (by omega), wrap8_of_range (by omega) (by omega),
    wrap8_of_range (by omega) (by omega)⟩
  intro hd
  rcases hok with ⟨_, _, b⟩ | ⟨hs, a⟩ | ⟨hs, _, _⟩
  · exact b
  · rw [a]; decide
  · rw [hs] at hd; cases hd

theorem C21_failures_counter_stays_in_range_witness :
    (World.init [(['h'], 6379)]).run
        [.tick (fun _ => .null), .tick (fun _ => .null), .tick (fun _ => .null)] =
      some demo_failing_world ∧
    ∀ h ∈ demo_failing_world.e.hosts,
      0 ≤ h.failures ∧ h.failures ≤ 20 ∧
      (h.status = HOST_DISCONNECTED → h.failures ≤ 10) ∧
      wrap8 h.failures = h.failures ∧
      wrap8 (h.failures + 1) = h.failures + 1 ∧
      wrap8 (h.failures.tmod 20) = h.failures.tmod 20 ∧
      wrap8 (h.failures.tmod 20 + 1) = h.failures.tmod 20 + 1 :=
  ⟨rfl, C21_failures_counter_stays_in_range [(['h'], 6379)]
    [.tick (fun _ => .null), .tick (fun _ => .null), .tick (fun _ => .null)]
    demo_failing_world rfl⟩

end Eredis
